import Mathlib

set_option maxHeartbeats 1000000

namespace TupleCompare

/-!  Shallow embedding of the TupleCompare repository (MsgPack.h, ByteSwap.h,
main.cpp).

Memory is modelled as a total function `Nat → Nat`; every read goes through
`readByte`, which reduces mod 256 because the C code reads `uint8_t` cells.
`mp_write`/`memcpy` of an N-byte unsigned integer on the little-endian host
after `bswap` lays down big-endian bytes, so multi-byte wire values are
modelled directly as big-endian byte lists (`beBytes`); the in-buffer offset
slots (`Tuple::get_offset`, a native `uint32_t` view of the buffer) are
little-endian byte lists (`leBytes`).  A decode that would trip a C `assert`
is modelled as `none`.  Counters (`field_count`, `data_used`) are `Nat`:
their C types are `uint32_t`, and within the 256-byte `data` buffer
(`MAX_TEST_TUPLE_DATA_SIZE`) they can never reach the wrap-around point,
while the values that the code does physically truncate (the `uint16_t`
`first_field_offset` member and the 4-byte offset slots) are truncated
explicitly here as well.  -/

/-- Read one byte of memory (C reads `uint8_t`, hence the mod 256). -/
def readByte (mem : Nat → Nat) (pos : Nat) : Nat := mem pos % 256

/-- Write a list of bytes into memory at `pos`, one byte after the other
(the `memcpy` in `mp_write` / `mp_encode_string`). -/
def writeBytes : (Nat → Nat) → Nat → List Nat → (Nat → Nat)
  | mem, _, [] => mem
  | mem, pos, b :: bs => writeBytes (fun i => if i = pos then b else mem i) (pos + 1) bs

/-- Read `n` consecutive bytes of memory starting at `pos`. -/
def readBytes (mem : Nat → Nat) : Nat → Nat → List Nat
  | _, 0 => []
  | pos, n + 1 => readByte mem pos :: readBytes mem (pos + 1) n

/-- The `w` big-endian bytes of `v` (what `mp_write<uintW>` emits after
`bswap` on the little-endian host). -/
def beBytes : Nat → Nat → List Nat
  | 0, _ => []
  | w + 1, v => v / 256 ^ w % 256 :: beBytes w v

/-- Value of a big-endian byte list. -/
def beVal : List Nat → Nat
  | [] => 0
  | b :: bs => b * 256 ^ bs.length + beVal bs

/-- The `w` little-endian bytes of `v` (native `uint32_t` store on the
little-endian host, used for the in-buffer offset slots). -/
def leBytes : Nat → Nat → List Nat
  | 0, _ => []
  | w + 1, v => v % 256 :: leBytes w (v / 256)

/-- Value of a little-endian byte list. -/
def leVal : List Nat → Nat
  | [] => 0
  | b :: bs => b + 256 * leVal bs

/-- `mp_read<uintW>`: read a `w`-byte big-endian value at `pos`
(`memcpy` + `bswap`). -/
def mp_read (mem : Nat → Nat) : Nat → Nat → Nat
  | _, 0 => 0
  | pos, w + 1 => readByte mem pos * 256 ^ w + mp_read mem (pos + 1) w

/-- Native-order read of a `w`-byte value at `pos` (the
`((offset_t *)data)[i-1]` access of `Tuple::get_offset`). -/
def readLE (mem : Nat → Nat) : Nat → Nat → Nat
  | _, 0 => 0
  | pos, w + 1 => readByte mem pos + 256 * readLE mem (pos + 1) w

/-- `mp_encode_uint` from MsgPack.h: the bytes written for `num`. -/
def mp_encode_uint (num : Nat) : List Nat :=
  if num ≤ 0x7f then beBytes 1 num
  else if num ≤ 0xff then 0xcc :: beBytes 1 num
  else if num ≤ 0xffff then 0xcd :: beBytes 2 num
  else if num ≤ 0xffffffff then 0xce :: beBytes 4 num
  else 0xcf :: beBytes 8 num

/-- `mp_decode_uint` from MsgPack.h.  Returns the decoded value together
with the advanced cursor; `none` models the failing `assert(c <= 0x7f)`
on an unrecognized marker. -/
def mp_decode_uint (mem : Nat → Nat) (pos : Nat) : Option (Nat × Nat) :=
  if readByte mem pos = 0xcc then some (mp_read mem (pos + 1) 1, pos + 2)
  else if readByte mem pos = 0xcd then some (mp_read mem (pos + 1) 2, pos + 3)
  else if readByte mem pos = 0xce then some (mp_read mem (pos + 1) 4, pos + 5)
  else if readByte mem pos = 0xcf then some (mp_read mem (pos + 1) 8, pos + 9)
  else if readByte mem pos ≤ 0x7f then some (readByte mem pos, pos + 1)
  else none

/-- The marker/length header that `mp_encode_string` writes for a string of
length `len`. -/
def strHeader (len : Nat) : List Nat :=
  if len ≤ 31 then [0xa0 ||| len]
  else if len ≤ 0xff then 0xd9 :: beBytes 1 len
  else if len ≤ 0xffff then 0xda :: beBytes 2 len
  else 0xdb :: beBytes 4 len

/-- `mp_encode_string` from MsgPack.h: header bytes followed by the
`memcpy`-ed payload. -/
def mp_encode_string (s : List Nat) : List Nat := strHeader s.length ++ s

/-- `mp_decode_string` from MsgPack.h.  Returns the position of the
(zero-copy) payload view, the decoded length and the advanced cursor;
`none` models the failing `assert(c >= 0xa0 && c <= 0xbf)`. -/
def mp_decode_string (mem : Nat → Nat) (pos : Nat) : Option (Nat × Nat × Nat) :=
  if readByte mem pos = 0xd9 then
    some (pos + 2, mp_read mem (pos + 1) 1, pos + 2 + mp_read mem (pos + 1) 1)
  else if readByte mem pos = 0xda then
    some (pos + 3, mp_read mem (pos + 1) 2, pos + 3 + mp_read mem (pos + 1) 2)
  else if readByte mem pos = 0xdb then
    some (pos + 5, mp_read mem (pos + 1) 4, pos + 5 + mp_read mem (pos + 1) 4)
  else if 0xa0 ≤ readByte mem pos ∧ readByte mem pos ≤ 0xbf then
    some (pos + 1, readByte mem pos &&& 0x1f, pos + 1 + (readByte mem pos &&& 0x1f))
  else none

/-- `MAX_TEST_TUPLE_DATA_SIZE = 16 * TEST_FIELD_COUNT_IN_TUPLE` from
main.cpp. -/
def MAX_TEST_TUPLE_DATA_SIZE : Nat := 16 * 16

/-- `struct Tuple` from main.cpp.  `data` is the byte buffer holding both
the offset slots and the msgpack payload. -/
structure Tuple where
  field_count : Nat
  data_used : Nat
  num_offsets : Nat
  first_field_offset : Nat
  data : Nat → Nat

/-- `Tuple::get_offset`: the dynamically allocated offset slot `i`, read as
a native `uint32_t` from `data[(i-1)*4]`. -/
def Tuple.get_offset (t : Tuple) (i : Nat) : Nat := readLE t.data ((i - 1) * 4) 4

/-- `Tuple::get_field`: the buffer position where field `i` starts. -/
def Tuple.get_field (t : Tuple) (i : Nat) : Nat :=
  if i = 0 then t.first_field_offset else t.get_offset i

/-- `Tuple::reset`. -/
def Tuple.reset (t : Tuple) (a_num_offsets : Nat) : Tuple :=
  { t with field_count := 0, num_offsets := a_num_offsets,
           data_used := (a_num_offsets - 1) * 4 }

/-- Common body of the two `Tuple::add` overloads: write the encoded bytes
at `data_used`, record the offset of the new field (the `uint16_t`
`first_field_offset` member for field 0, otherwise a 4-byte slot when
`field_count < num_offsets`), then advance `data_used` and `field_count`. -/
def Tuple.addBytes (t : Tuple) (bs : List Nat) : Tuple where
  field_count := t.field_count + 1
  data_used := t.data_used + bs.length
  num_offsets := t.num_offsets
  first_field_offset :=
    if t.field_count = 0 then t.data_used % 65536 else t.first_field_offset
  data :=
    if t.field_count = 0 then writeBytes t.data t.data_used bs
    else if t.field_count < t.num_offsets then
      writeBytes (writeBytes t.data t.data_used bs)
        ((t.field_count - 1) * 4) (leBytes 4 t.data_used)
    else writeBytes t.data t.data_used bs

/-- `Tuple::add(uint64_t)`. -/
def Tuple.add_uint (t : Tuple) (value : Nat) : Tuple := t.addBytes (mp_encode_uint value)

/-- `Tuple::add(const char *, uint32_t)`. -/
def Tuple.add_string (t : Tuple) (s : List Nat) : Tuple := t.addBytes (mp_encode_string s)

/-- `KeyDef::field_type_t` from main.cpp. -/
inductive FieldType where
  | UINT
  | STRING
  | UNDEFINED
deriving DecidableEq

/-- A scalar value a tuple field can hold (unsigned integer or byte
string). -/
inductive Field where
  | uintF (value : Nat)
  | strF (s : List Nat)
deriving DecidableEq

/-- The bytes a field is serialized to. -/
def Field.encode : Field → List Nat
  | .uintF v => mp_encode_uint v
  | .strF s => mp_encode_string s

/-- Encoded size of a field. -/
def encLen (f : Field) : Nat := f.encode.length

/-- Values representable by the C types: a `uint64_t` integer, or a string
of `char` bytes with a `uint32_t` length. -/
def Field.WF : Field → Prop
  | .uintF v => v < 2 ^ 64
  | .strF s => s.length < 2 ^ 32 ∧ ∀ b ∈ s, b < 256

instance (f : Field) : Decidable f.WF := by
  cases f <;> (unfold Field.WF; infer_instance)

/-- The msgpack type a field is encoded with. -/
def Field.ftype : Field → FieldType
  | .uintF _ => .UINT
  | .strF _ => .STRING

/-- Append one field value (`Tuple::add` dispatch by value type). -/
def Tuple.add_field (t : Tuple) : Field → Tuple
  | .uintF v => t.add_uint v
  | .strF s => t.add_string s

/-- A fresh zeroed tuple (the static `tuples` array storage). -/
def emptyTuple : Tuple := ⟨0, 0, 0, 0, fun _ => 0⟩

/-- A record built by `reset k` followed by in-order appends of `fs`. -/
def buildTuple (k : Nat) (fs : List Field) : Tuple :=
  fs.foldl Tuple.add_field (emptyTuple.reset k)

/-- Buffer position where field `i` of a record built as
`buildTuple k fs` begins: past the `k - 1` offset slots and past the
encodings of the previous fields. -/
def fieldPos (k : Nat) (fs : List Field) (i : Nat) : Nat :=
  (k - 1) * 4 + ((fs.take i).map encLen).sum

/-- Total bytes used by a record built as `buildTuple k fs`. -/
def fieldEnd (k : Nat) (fs : List Field) : Nat := fieldPos k fs fs.length

/-- Layout invariant of a built tuple: counters, the first-field offset,
the stored offset slots and the bytes of every field. -/
def TupleInv (k : Nat) (fs : List Field) (t : Tuple) : Prop :=
  t.num_offsets = k ∧
  t.field_count = fs.length ∧
  t.data_used = fieldEnd k fs ∧
  (fs.length ≠ 0 → t.first_field_offset = fieldPos k fs 0 % 65536) ∧
  (∀ i, 1 ≤ i → i < k → i < fs.length →
    readLE t.data ((i - 1) * 4) 4 = fieldPos k fs i % 2 ^ 32) ∧
  (∀ i, i < fs.length →
    readBytes t.data (fieldPos k fs i) (encLen (fs.getD i (.uintF 0))) =
      (fs.getD i (.uintF 0)).encode)

/-- `KeyDef::KeyPart` from main.cpp. -/
structure KeyPart where
  field_type : FieldType
  field_no : Nat
deriving DecidableEq

/-- `KeyDef` from main.cpp (`part_count` is the list length). -/
structure KeyDef where
  parts : List KeyPart

/-- C `memcmp` over `n` bytes of two memories (sign of the first byte
difference, comparing `unsigned char`). -/
def memcmpMem (m1 m2 : Nat → Nat) : Nat → Nat → Nat → Int
  | _, _, 0 => 0
  | p1, p2, n + 1 =>
    if readByte m1 p1 = readByte m2 p2 then memcmpMem m1 m2 (p1 + 1) (p2 + 1) n
    else (readByte m1 p1 : Int) - readByte m2 p2

/-- One comparison step of `default_tuple_compare`'s loop body: decode one
field from each record at the given cursors with type `ty` and three-way
compare them, returning the result together with the advanced cursors.
The `else` branch (the string branch of the C `if`) is also taken for
`UNDEFINED`, exactly as in the source. -/
def stepCompare (ty : FieldType) (m1 : Nat → Nat) (c1 : Nat) (m2 : Nat → Nat) (c2 : Nat) :
    Option (Int × Nat × Nat) :=
  if ty = FieldType.UINT then
    (mp_decode_uint m1 c1).bind fun r1 =>
      (mp_decode_uint m2 c2).bind fun r2 =>
        some (if r1.1 < r2.1 then -1 else if r1.1 > r2.1 then 1 else 0, r1.2, r2.2)
  else
    (mp_decode_string m1 c1).bind fun r1 =>
      (mp_decode_string m2 c2).bind fun r2 =>
        some (if memcmpMem m1 m2 r1.1 r2.1 (if r1.2.1 < r2.2.1 then r1.2.1 else r2.2.1) ≠ 0
              then memcmpMem m1 m2 r1.1 r2.1 (if r1.2.1 < r2.2.1 then r1.2.1 else r2.2.1)
              else if r1.2.1 < r2.2.1 then -1 else if r1.2.1 > r2.2.1 then 1 else 0,
              r1.2.2, r2.2.2)

/-- The repositioning test of the comparator loop:
`i == 0 || parts[i].field_no != parts[i-1].field_no + 1`. -/
def reposition (prevNo : Option Nat) (fno : Nat) : Prop :=
  match prevNo with
  | none => True
  | some q => fno ≠ q + 1

instance (prevNo : Option Nat) (fno : Nat) : Decidable (reposition prevNo fno) := by
  unfold reposition
  cases prevNo <;> infer_instance

/-- The loop of `default_tuple_compare`: `prevNo` is the previous part's
`field_no` (`none` on the first iteration), `c1`/`c2` are the cursors left
by the previous decode.  NOTE the source decodes every part with
`def->parts[0].field_type` (here `ty0`), not with the current part's own
type. -/
def comparePartsAux (ty0 : FieldType) (t1 t2 : Tuple) :
    List KeyPart → Option Nat → Nat → Nat → Option Int
  | [], _, _, _ => some 0
  | p :: rest, prevNo, c1, c2 =>
    let c1' := if reposition prevNo p.field_no then t1.get_field p.field_no else c1
    let c2' := if reposition prevNo p.field_no then t2.get_field p.field_no else c2
    match stepCompare ty0 t1.data c1' t2.data c2' with
    | none => none
    | some (r, n1, n2) =>
      if r ≠ 0 then some r
      else comparePartsAux ty0 t1 t2 rest (some p.field_no) n1 n2

/-- `default_tuple_compare` from main.cpp.  `none` models a failing
`assert` (`part_count > 0`, or an unrecognized marker inside a decode). -/
def default_tuple_compare (kd : KeyDef) (t1 t2 : Tuple) : Option Int :=
  match kd.parts with
  | [] => none
  | p0 :: _ => comparePartsAux p0.field_type t1 t2 kd.parts none 0 0

/-- Modelled from the spec (§8, sequential-field optimization equivalence):
the reference comparator that recomputes `field_start` for every part,
i.e. `default_tuple_compare` with the cursor-reuse optimization removed
and everything else unchanged. -/
def referencePartsAux (ty0 : FieldType) (t1 t2 : Tuple) : List KeyPart → Option Int
  | [] => some 0
  | p :: rest =>
    match stepCompare ty0 t1.data (t1.get_field p.field_no) t2.data (t2.get_field p.field_no) with
    | none => none
    | some (r, _, _) => if r ≠ 0 then some r else referencePartsAux ty0 t1 t2 rest

/-- Modelled from the spec: the reference comparator entry point. -/
def reference_tuple_compare (kd : KeyDef) (t1 t2 : Tuple) : Option Int :=
  match kd.parts with
  | [] => none
  | p0 :: _ => referencePartsAux p0.field_type t1 t2 kd.parts

/-- Modelled from the spec (§4.3 step 2: decode with the Key Part's own
declared type): the loop of the comparator as the spec describes it, i.e.
`comparePartsAux` with `p.field_type` in place of the first part's type. -/
def specPartsAux (t1 t2 : Tuple) :
    List KeyPart → Option Nat → Nat → Nat → Option Int
  | [], _, _, _ => some 0
  | p :: rest, prevNo, c1, c2 =>
    let c1' := if reposition prevNo p.field_no then t1.get_field p.field_no else c1
    let c2' := if reposition prevNo p.field_no then t2.get_field p.field_no else c2
    match stepCompare p.field_type t1.data c1' t2.data c2' with
    | none => none
    | some (r, n1, n2) =>
      if r ≠ 0 then some r
      else specPartsAux t1 t2 rest (some p.field_no) n1 n2

/-- Modelled from the spec: comparator entry point decoding each part with
its own declared type. -/
def spec_tuple_compare (kd : KeyDef) (t1 t2 : Tuple) : Option Int :=
  match kd.parts with
  | [] => none
  | _ :: _ => specPartsAux t1 t2 kd.parts none 0 0

/-- `tuple_compare_by_first_uint` from main.cpp
(`value1 < value2 ? -1 : value1 > value2`). -/
def tuple_compare_by_first_uint (_kd : KeyDef) (t1 t2 : Tuple) : Option Int :=
  match mp_decode_uint t1.data t1.first_field_offset,
        mp_decode_uint t2.data t2.first_field_offset with
  | some (v1, _), some (v2, _) =>
    some (if v1 < v2 then -1 else if v1 > v2 then 1 else 0)
  | _, _ => none

/-- Three-way comparison of naturals as the comparator performs it. -/
def cmpU (a b : Nat) : Int := if a < b then -1 else if a > b then 1 else 0

/-- `memcmp` at the level of byte lists, limited to `n` bytes. -/
def memcmpList : Nat → List Nat → List Nat → Int
  | 0, _, _ => 0
  | _ + 1, [], _ => 0
  | _ + 1, _ :: _, [] => 0
  | n + 1, a :: as, b :: bs =>
    if a = b then memcmpList n as bs else (a : Int) - b

/-- The string comparison the comparator's string branch performs:
`memcmp` over the shorter length, ties broken by length. -/
def cmpStr (s1 s2 : List Nat) : Int :=
  let r := memcmpList (min s1.length s2.length) s1 s2
  if r ≠ 0 then r else cmpU s1.length s2.length

/-- Structural three-way lexicographic byte-list comparison. -/
def lexCmpBytes : List Nat → List Nat → Int
  | [], [] => 0
  | [], _ :: _ => -1
  | _ :: _, [] => 1
  | a :: as, b :: bs => if a = b then lexCmpBytes as bs else (a : Int) - b

/-- Standard strict lexicographic order on byte strings. -/
def bytesLt : List Nat → List Nat → Prop
  | [], [] => False
  | [], _ :: _ => True
  | _ :: _, [] => False
  | a :: as, b :: bs => a < b ∨ (a = b ∧ bytesLt as bs)

/-- Decidability of `bytesLt`. -/
def bytesLt.dec : (s1 s2 : List Nat) → Decidable (bytesLt s1 s2)
  | [], [] => isFalse fun h => h
  | _ :: _, [] => isFalse fun h => h
  | [], _ :: _ => isTrue trivial
  | a :: as, b :: bs =>
    match Nat.decLt a b, Nat.decEq a b, bytesLt.dec as bs with
    | isTrue h, _, _ => isTrue (Or.inl h)
    | isFalse h, isTrue he, isTrue ht => isTrue (Or.inr ⟨he, ht⟩)
    | isFalse h, isTrue he, isFalse ht =>
      isFalse fun hh => hh.elim h fun hp => ht hp.2
    | isFalse h, isFalse he, _ =>
      isFalse fun hh => hh.elim h fun hp => he hp.1

instance : ∀ s1 s2, Decidable (bytesLt s1 s2) := bytesLt.dec

/-- Three-way comparison of two field values of the same type. -/
def fieldCmp : Field → Field → Int
  | .uintF a, .uintF b => cmpU a b
  | .strF a, .strF b => cmpStr a b
  | .uintF _, .strF _ => 0
  | .strF _, .uintF _ => 0

/-- Strict order on field values of the same type. -/
def fieldLt : Field → Field → Prop
  | .uintF a, .uintF b => a < b
  | .strF a, .strF b => bytesLt a b
  | .uintF _, .strF _ => False
  | .strF _, .uintF _ => False

/-- Lexicographic three-way comparison of two equal-length sequences of
field values. -/
def lexCmp : List Field → List Field → Int
  | a :: as, b :: bs => if fieldCmp a b ≠ 0 then fieldCmp a b else lexCmp as bs
  | _, _ => 0

/-- Strict lexicographic order on equal-length field sequences. -/
def keyLt : List Field → List Field → Prop
  | [], [] => False
  | [], _ :: _ => True
  | _ :: _, [] => False
  | a :: as, b :: bs => fieldLt a b ∨ (a = b ∧ keyLt as bs)

/-- The sequence of field values a Key Definition's parts select from a
record's fields. -/
def keyVals (fs : List Field) (ps : List KeyPart) : List Field :=
  ps.map fun p => fs.getD p.field_no (.uintF 0)

/-- One key part is compatible with a record built from `k`, `fs`:
the referenced field exists, has a stored offset, and is encoded with the
part's declared type. -/
def partCompat (k : Nat) (fs : List Field) (p : KeyPart) : Prop :=
  p.field_no < k ∧ p.field_no < fs.length ∧
    (fs.getD p.field_no (.uintF 0)).ftype = p.field_type

instance (k : Nat) (fs : List Field) (p : KeyPart) : Decidable (partCompat k fs p) := by
  unfold partCompat; infer_instance

/-- Every part of a key definition is compatible with the record. -/
def kdCompat (kd : KeyDef) (k : Nat) (fs : List Field) : Prop :=
  ∀ p ∈ kd.parts, partCompat k fs p

instance (kd : KeyDef) (k : Nat) (fs : List Field) : Decidable (kdCompat kd k fs) := by
  unfold kdCompat; infer_instance

/-- All parts of a key definition declare the same field type as the first
part. -/
def homogeneous (kd : KeyDef) : Prop :=
  ∀ p ∈ kd.parts, p.field_type = (kd.parts.headD ⟨.UNDEFINED, 0⟩).field_type

instance (kd : KeyDef) : Decidable (homogeneous kd) := by
  unfold homogeneous
  infer_instance

/-- The parts of a key definition reference strictly consecutive field
indices. -/
def consecutiveParts : List KeyPart → Prop
  | [] => True
  | [_] => True
  | p :: q :: rest => q.field_no = p.field_no + 1 ∧ consecutiveParts (q :: rest)

/-- Decidability of `consecutiveParts`. -/
def consecutiveParts.dec : (ps : List KeyPart) → Decidable (consecutiveParts ps)
  | [] => isTrue trivial
  | [_] => isTrue trivial
  | p :: q :: rest =>
    match Nat.decEq q.field_no (p.field_no + 1), consecutiveParts.dec (q :: rest) with
    | isTrue h1, isTrue h2 => isTrue ⟨h1, h2⟩
    | isTrue _, isFalse h2 => isFalse fun hh => h2 hh.2
    | isFalse h1, _ => isFalse fun hh => h1 hh.1

instance (ps : List KeyPart) : Decidable (consecutiveParts ps) := consecutiveParts.dec ps

/-!  Byte-level lemmas. -/

theorem writeBytes_eq_of_lt : ∀ (bs : List Nat) (mem : Nat → Nat) (pos i : Nat),
    i < pos → writeBytes mem pos bs i = mem i
  | [], _, _, _, _ => rfl
  | b :: bs, mem, pos, i, h => by
    show writeBytes (fun j => if j = pos then b else mem j) (pos + 1) bs i = mem i
    rw [writeBytes_eq_of_lt bs _ (pos + 1) i (by omega)]
    exact if_neg (by omega)

theorem writeBytes_eq_of_ge : ∀ (bs : List Nat) (mem : Nat → Nat) (pos i : Nat),
    pos + bs.length ≤ i → writeBytes mem pos bs i = mem i
  | [], _, _, _, _ => rfl
  | b :: bs, mem, pos, i, h => by
    show writeBytes (fun j => if j = pos then b else mem j) (pos + 1) bs i = mem i
    rw [writeBytes_eq_of_ge bs _ (pos + 1) i (by simp at h ⊢; omega)]
    exact if_neg (by simp at h; omega)

theorem readBytes_length (mem : Nat → Nat) : ∀ (n pos : Nat), (readBytes mem pos n).length = n
  | 0, _ => rfl
  | n + 1, pos => by simp [readBytes, readBytes_length mem n]

theorem readBytes_ext : ∀ (n : Nat) (mem1 mem2 : Nat → Nat) (pos : Nat),
    (∀ j, j < n → mem1 (pos + j) = mem2 (pos + j)) →
    readBytes mem1 pos n = readBytes mem2 pos n
  | 0, _, _, _, _ => rfl
  | n + 1, mem1, mem2, pos, h => by
    have h0 : mem1 pos = mem2 pos := by have := h 0 (by omega); simpa using this
    simp only [readBytes, readByte, h0]
    rw [readBytes_ext n mem1 mem2 (pos + 1) fun j hj => by
      have hx := h (j + 1) (by omega)
      have e : pos + 1 + j = pos + (j + 1) := by omega
      rw [e]; exact hx]

theorem readBytes_writeBytes : ∀ (bs : List Nat) (mem : Nat → Nat) (pos : Nat),
    (∀ b ∈ bs, b < 256) → readBytes (writeBytes mem pos bs) pos bs.length = bs
  | [], _, _, _ => rfl
  | b :: bs, mem, pos, h => by
    show readBytes (writeBytes (fun j => if j = pos then b else mem j) (pos + 1) bs) pos
      (bs.length + 1) = b :: bs
    simp only [readBytes, List.cons.injEq]
    constructor
    · rw [readByte, writeBytes_eq_of_lt bs _ (pos + 1) pos (by omega)]
      simp only [if_pos rfl]
      exact Nat.mod_eq_of_lt (h b (by simp))
    · exact readBytes_writeBytes bs _ (pos + 1) fun x hx => h x (by simp [hx])

theorem readBytes_writeBytes_left (bs : List Nat) (mem : Nat → Nat) (pos n wpos : Nat)
    (h : pos + n ≤ wpos) : readBytes (writeBytes mem wpos bs) pos n = readBytes mem pos n :=
  readBytes_ext n _ mem pos fun j hj => writeBytes_eq_of_lt bs mem wpos _ (by omega)

theorem readBytes_writeBytes_right (bs : List Nat) (mem : Nat → Nat) (pos n wpos : Nat)
    (h : wpos + bs.length ≤ pos) :
    readBytes (writeBytes mem wpos bs) pos n = readBytes mem pos n :=
  readBytes_ext n _ mem pos fun j hj => writeBytes_eq_of_ge bs mem wpos _ (by omega)

theorem readBytes_split (mem : Nat → Nat) : ∀ (m n pos : Nat),
    readBytes mem pos (m + n) = readBytes mem pos m ++ readBytes mem (pos + m) n
  | 0, n, pos => by simp [readBytes]
  | m + 1, n, pos => by
    have : m + 1 + n = (m + n) + 1 := by omega
    rw [this]
    simp only [readBytes, List.cons_append, List.cons.injEq, true_and]
    rw [readBytes_split mem m n (pos + 1)]
    congr 2
    omega

theorem readBytes_append_inv {mem : Nat → Nat} {pos : Nat} {l1 l2 : List Nat}
    (h : readBytes mem pos (l1.length + l2.length) = l1 ++ l2) :
    readBytes mem pos l1.length = l1 ∧ readBytes mem (pos + l1.length) l2.length = l2 := by
  rw [readBytes_split] at h
  exact List.append_inj h (readBytes_length mem l1.length pos)

theorem readBytes_cons_inv {mem : Nat → Nat} {pos n : Nat} {c : Nat} {l : List Nat}
    (h : readBytes mem pos (n + 1) = c :: l) :
    readByte mem pos = c ∧ readBytes mem (pos + 1) n = l := by
  simp only [readBytes, List.cons.injEq] at h
  exact h

theorem readBytes_take (mem : Nat → Nat) : ∀ (n m pos : Nat), n ≤ m →
    (readBytes mem pos m).take n = readBytes mem pos n
  | 0, _, _, _ => by simp [readBytes]
  | n + 1, m + 1, pos, h => by
    simp only [readBytes, List.take_succ_cons, List.cons.injEq, true_and]
    exact readBytes_take mem n m (pos + 1) (by omega)

theorem beBytes_length : ∀ (w v : Nat), (beBytes w v).length = w
  | 0, _ => rfl
  | w + 1, v => by simp [beBytes, beBytes_length w v]

theorem beBytes_lt : ∀ (w v : Nat), ∀ b ∈ beBytes w v, b < 256
  | w + 1, v, b, hb => by
    simp only [beBytes, List.mem_cons] at hb
    rcases hb with h | h
    · omega
    · exact beBytes_lt w v b h

theorem leBytes_length : ∀ (w v : Nat), (leBytes w v).length = w
  | 0, _ => rfl
  | w + 1, v => by simp [leBytes, leBytes_length w (v / 256)]

theorem leBytes_lt : ∀ (w v : Nat), ∀ b ∈ leBytes w v, b < 256
  | w + 1, v, b, hb => by
    simp only [leBytes, List.mem_cons] at hb
    rcases hb with h | h
    · omega
    · exact leBytes_lt w (v / 256) b h

theorem beVal_beBytes : ∀ (w v : Nat), beVal (beBytes w v) = v % 256 ^ w
  | 0, v => by simp [beBytes, beVal, Nat.mod_one]
  | w + 1, v => by
    simp only [beBytes, beVal, beBytes_length, beVal_beBytes w v]
    rw [pow_succ, Nat.mod_mul]
    ring

theorem leVal_leBytes : ∀ (w v : Nat), leVal (leBytes w v) = v % 256 ^ w
  | 0, v => by simp [leBytes, leVal, Nat.mod_one]
  | w + 1, v => by
    simp only [leBytes, leVal, leVal_leBytes w (v / 256)]
    rw [pow_succ']
    rw [Nat.mod_mul]

theorem mp_read_eq_beVal (mem : Nat → Nat) : ∀ (w pos : Nat),
    mp_read mem pos w = beVal (readBytes mem pos w)
  | 0, _ => rfl
  | w + 1, pos => by
    show readByte mem pos * 256 ^ w + mp_read mem (pos + 1) w
      = beVal (readByte mem pos :: readBytes mem (pos + 1) w)
    rw [mp_read_eq_beVal mem w (pos + 1)]
    simp [beVal, readBytes_length]

theorem readLE_eq_leVal (mem : Nat → Nat) : ∀ (w pos : Nat),
    readLE mem pos w = leVal (readBytes mem pos w)
  | 0, _ => rfl
  | w + 1, pos => by
    show readByte mem pos + 256 * readLE mem (pos + 1) w
      = leVal (readByte mem pos :: readBytes mem (pos + 1) w)
    rw [readLE_eq_leVal mem w (pos + 1)]
    simp [leVal]

theorem mp_read_of_readBytes {mem : Nat → Nat} {pos w v : Nat}
    (h : readBytes mem pos w = beBytes w v) : mp_read mem pos w = v % 256 ^ w := by
  rw [mp_read_eq_beVal, h, beVal_beBytes]

/-!  Codec lemmas. -/

theorem fixstr_facts : ∀ l, l < 32 → 0xa0 ||| l = 0xa0 + l ∧ (0xa0 + l) &&& 0x1f = l := by
  decide

theorem mp_encode_uint_bytes_lt (v : Nat) : ∀ b ∈ mp_encode_uint v, b < 256 := by
  unfold mp_encode_uint
  split_ifs <;> intro b hb
  · exact beBytes_lt _ _ b hb
  all_goals
    rcases List.mem_cons.mp hb with h | h
    · omega
    · exact beBytes_lt _ _ b h

theorem strHeader_bytes_lt (len : Nat) : ∀ b ∈ strHeader len, b < 256 := by
  unfold strHeader
  split_ifs with h1 h2 h3 <;> intro b hb
  · have := (fixstr_facts len (by omega)).1
    rcases List.mem_cons.mp hb with h | h
    · omega
    · simp at h
  all_goals
    rcases List.mem_cons.mp hb with h | h
    · omega
    · exact beBytes_lt _ _ b h

theorem mp_encode_string_bytes_lt {s : List Nat} (hs : ∀ b ∈ s, b < 256) :
    ∀ b ∈ mp_encode_string s, b < 256 := by
  intro b hb
  rcases List.mem_append.mp hb with h | h
  · exact strHeader_bytes_lt s.length b h
  · exact hs b h

theorem beBytes_one (v : Nat) (h : v < 256) : beBytes 1 v = [v] := by
  simp [beBytes, Nat.mod_eq_of_lt h]

theorem mp_decode_uint_of_bytes {v : Nat} (hv : v < 2 ^ 64) {mem : Nat → Nat} {pos : Nat}
    (h : readBytes mem pos (mp_encode_uint v).length = mp_encode_uint v) :
    mp_decode_uint mem pos = some (v, pos + (mp_encode_uint v).length) := by
  unfold mp_encode_uint at h ⊢
  by_cases h1 : v ≤ 0x7f
  · rw [if_pos h1] at h ⊢
    rw [beBytes_one v (by omega)] at h ⊢
    simp only [List.length_singleton] at h ⊢
    obtain ⟨hc, -⟩ := readBytes_cons_inv (n := 0) h
    unfold mp_decode_uint
    rw [hc, if_neg (by omega : ¬ v = 0xcc), if_neg (by omega : ¬ v = 0xcd),
      if_neg (by omega : ¬ v = 0xce), if_neg (by omega : ¬ v = 0xcf), if_pos h1]
  · by_cases h2 : v ≤ 0xff
    · rw [if_neg h1, if_pos h2] at h ⊢
      simp only [List.length_cons, beBytes_length] at h ⊢
      obtain ⟨hc, ht⟩ := readBytes_cons_inv (n := 1) h
      unfold mp_decode_uint
      rw [hc, mp_read_of_readBytes ht, Nat.mod_eq_of_lt (by omega : v < 256 ^ 1)]
      norm_num
    · by_cases h3 : v ≤ 0xffff
      · rw [if_neg h1, if_neg h2, if_pos h3] at h ⊢
        simp only [List.length_cons, beBytes_length] at h ⊢
        obtain ⟨hc, ht⟩ := readBytes_cons_inv (n := 2) h
        unfold mp_decode_uint
        rw [hc, mp_read_of_readBytes ht, Nat.mod_eq_of_lt (by omega : v < 256 ^ 2)]
        norm_num
      · by_cases h4 : v ≤ 0xffffffff
        · rw [if_neg h1, if_neg h2, if_neg h3, if_pos h4] at h ⊢
          simp only [List.length_cons, beBytes_length] at h ⊢
          obtain ⟨hc, ht⟩ := readBytes_cons_inv (n := 4) h
          unfold mp_decode_uint
          rw [hc, mp_read_of_readBytes ht, Nat.mod_eq_of_lt (by omega : v < 256 ^ 4)]
          norm_num
        · rw [if_neg h1, if_neg h2, if_neg h3, if_neg h4] at h ⊢
          simp only [List.length_cons, beBytes_length] at h ⊢
          obtain ⟨hc, ht⟩ := readBytes_cons_inv (n := 8) h
          unfold mp_decode_uint
          rw [hc, mp_read_of_readBytes ht, Nat.mod_eq_of_lt (by omega : v < 256 ^ 8)]
          norm_num

theorem mp_decode_string_of_bytes {s : List Nat} (hlen : s.length < 2 ^ 32)
    {mem : Nat → Nat} {pos : Nat}
    (h : readBytes mem pos (mp_encode_string s).length = mp_encode_string s) :
    mp_decode_string mem pos =
      some (pos + (strHeader s.length).length, s.length, pos + (mp_encode_string s).length) ∧
    readBytes mem (pos + (strHeader s.length).length) s.length = s := by
  rw [mp_encode_string, List.length_append] at h
  obtain ⟨hhdr, hpay⟩ := readBytes_append_inv h
  refine ⟨?_, hpay⟩
  have hlen2 : (mp_encode_string s).length = (strHeader s.length).length + s.length := by
    rw [mp_encode_string, List.length_append]
  rw [hlen2]
  by_cases c1 : s.length ≤ 31
  · rw [strHeader, if_pos c1] at hhdr ⊢
    simp only [List.length_singleton] at hhdr ⊢
    obtain ⟨hc, -⟩ := readBytes_cons_inv (n := 0) hhdr
    have hf := fixstr_facts s.length (by omega)
    unfold mp_decode_string
    rw [hc, hf.1, if_neg (by omega : ¬ 0xa0 + s.length = 0xd9),
      if_neg (by omega : ¬ 0xa0 + s.length = 0xda),
      if_neg (by omega : ¬ 0xa0 + s.length = 0xdb),
      if_pos (⟨by omega, by omega⟩ : 0xa0 ≤ 0xa0 + s.length ∧ 0xa0 + s.length ≤ 0xbf),
      hf.2]
    simp only [Option.some.injEq, Prod.mk.injEq, true_and]
    omega
  · by_cases c2 : s.length ≤ 0xff
    · rw [strHeader, if_neg c1, if_pos c2] at hhdr ⊢
      simp only [List.length_cons, beBytes_length] at hhdr ⊢
      obtain ⟨hc, ht⟩ := readBytes_cons_inv (n := 1) hhdr
      unfold mp_decode_string
      rw [hc, mp_read_of_readBytes ht,
        Nat.mod_eq_of_lt (by omega : s.length < 256 ^ 1)]
      norm_num
      omega
    · by_cases c3 : s.length ≤ 0xffff
      · rw [strHeader, if_neg c1, if_neg c2, if_pos c3] at hhdr ⊢
        simp only [List.length_cons, beBytes_length] at hhdr ⊢
        obtain ⟨hc, ht⟩ := readBytes_cons_inv (n := 2) hhdr
        unfold mp_decode_string
        rw [hc, mp_read_of_readBytes ht,
          Nat.mod_eq_of_lt (by omega : s.length < 256 ^ 2)]
        norm_num
        omega
      · rw [strHeader, if_neg c1, if_neg c2, if_neg c3] at hhdr ⊢
        simp only [List.length_cons, beBytes_length] at hhdr ⊢
        obtain ⟨hc, ht⟩ := readBytes_cons_inv (n := 4) hhdr
        unfold mp_decode_string
        rw [hc, mp_read_of_readBytes ht,
          Nat.mod_eq_of_lt (by omega : s.length < 256 ^ 4)]
        norm_num
        omega

theorem mp_decode_uint_eq_none_iff (mem : Nat → Nat) (pos : Nat) :
    mp_decode_uint mem pos = none ↔
      ¬(readByte mem pos ≤ 0x7f ∨ readByte mem pos = 0xcc ∨ readByte mem pos = 0xcd ∨
        readByte mem pos = 0xce ∨ readByte mem pos = 0xcf) := by
  unfold mp_decode_uint
  split_ifs with h1 h2 h3 h4 h5 <;> simp <;> omega

theorem mp_decode_string_eq_none_iff (mem : Nat → Nat) (pos : Nat) :
    mp_decode_string mem pos = none ↔
      ¬((0xa0 ≤ readByte mem pos ∧ readByte mem pos ≤ 0xbf) ∨ readByte mem pos = 0xd9 ∨
        readByte mem pos = 0xda ∨ readByte mem pos = 0xdb) := by
  unfold mp_decode_string
  split_ifs with h1 h2 h3 h4 <;> simp <;> omega

theorem head_of_encode_uint {v : Nat} {mem : Nat → Nat} {pos : Nat}
    (h : readBytes mem pos (mp_encode_uint v).length = mp_encode_uint v) :
    readByte mem pos ≤ 0x7f ∨ readByte mem pos = 0xcc ∨ readByte mem pos = 0xcd ∨
      readByte mem pos = 0xce ∨ readByte mem pos = 0xcf := by
  unfold mp_encode_uint at h
  split_ifs at h with h1 h2 h3 h4
  · rw [beBytes_one v (by omega)] at h
    simp only [List.length_singleton] at h
    obtain ⟨hc, -⟩ := readBytes_cons_inv (n := 0) h
    omega
  · simp only [List.length_cons, beBytes_length] at h
    obtain ⟨hc, -⟩ := readBytes_cons_inv (n := 1) h
    omega
  · simp only [List.length_cons, beBytes_length] at h
    obtain ⟨hc, -⟩ := readBytes_cons_inv (n := 2) h
    omega
  · simp only [List.length_cons, beBytes_length] at h
    obtain ⟨hc, -⟩ := readBytes_cons_inv (n := 4) h
    omega
  · simp only [List.length_cons, beBytes_length] at h
    obtain ⟨hc, -⟩ := readBytes_cons_inv (n := 8) h
    omega

theorem head_of_encode_string {s : List Nat} {mem : Nat → Nat} {pos : Nat}
    (h : readBytes mem pos (mp_encode_string s).length = mp_encode_string s) :
    (0xa0 ≤ readByte mem pos ∧ readByte mem pos ≤ 0xbf) ∨ readByte mem pos = 0xd9 ∨
      readByte mem pos = 0xda ∨ readByte mem pos = 0xdb := by
  rw [mp_encode_string, List.length_append] at h
  obtain ⟨hhdr, -⟩ := readBytes_append_inv h
  unfold strHeader at hhdr
  split_ifs at hhdr with h1 h2 h3
  · simp only [List.length_singleton] at hhdr
    obtain ⟨hc, -⟩ := readBytes_cons_inv (n := 0) hhdr
    have := (fixstr_facts s.length (by omega)).1
    omega
  · simp only [List.length_cons, beBytes_length] at hhdr
    obtain ⟨hc, -⟩ := readBytes_cons_inv (n := 1) hhdr
    omega
  · simp only [List.length_cons, beBytes_length] at hhdr
    obtain ⟨hc, -⟩ := readBytes_cons_inv (n := 2) hhdr
    omega
  · simp only [List.length_cons, beBytes_length] at hhdr
    obtain ⟨hc, -⟩ := readBytes_cons_inv (n := 4) hhdr
    omega

theorem mp_decode_uint_none_of_string {s : List Nat} {mem : Nat → Nat} {pos : Nat}
    (h : readBytes mem pos (mp_encode_string s).length = mp_encode_string s) :
    mp_decode_uint mem pos = none := by
  rw [mp_decode_uint_eq_none_iff]
  have := head_of_encode_string h
  omega

theorem mp_decode_string_none_of_uint {v : Nat} {mem : Nat → Nat} {pos : Nat}
    (h : readBytes mem pos (mp_encode_uint v).length = mp_encode_uint v) :
    mp_decode_string mem pos = none := by
  rw [mp_decode_string_eq_none_iff]
  have := head_of_encode_uint h
  omega

/-!  Field position arithmetic. -/

theorem fieldPos_zero (k : Nat) (fs : List Field) : fieldPos k fs 0 = (k - 1) * 4 := by
  simp [fieldPos]

theorem sum_take_succ : ∀ (fs : List Field) (i : Nat), i < fs.length →
    ((fs.take (i + 1)).map encLen).sum =
      ((fs.take i).map encLen).sum + encLen (fs.getD i (.uintF 0))
  | f :: fs, 0, _ => by simp
  | f :: fs, i + 1, h => by
    simp only [List.take_succ_cons, List.map_cons, List.sum_cons, List.getD_cons_succ]
    rw [sum_take_succ fs i (by simpa using h)]
    omega
  | [], i, h => by simp at h

theorem fieldPos_succ (k : Nat) (fs : List Field) (i : Nat) (h : i < fs.length) :
    fieldPos k fs (i + 1) = fieldPos k fs i + encLen (fs.getD i (.uintF 0)) := by
  unfold fieldPos
  rw [sum_take_succ fs i h]
  omega

theorem sum_take_le : ∀ (fs : List Field) (i j : Nat), i ≤ j →
    ((fs.take i).map encLen).sum ≤ ((fs.take j).map encLen).sum
  | [], _, _, _ => by simp
  | _ :: _, 0, j, _ => by simp
  | f :: fs, i + 1, j, h => by
    obtain ⟨j', rfl⟩ : ∃ j', j = j' + 1 := ⟨j - 1, by omega⟩
    simp only [List.take_succ_cons, List.map_cons, List.sum_cons]
    have := sum_take_le fs i j' (by omega)
    omega

theorem fieldPos_mono (k : Nat) (fs : List Field) {i j : Nat} (h : i ≤ j) :
    fieldPos k fs i ≤ fieldPos k fs j := by
  unfold fieldPos
  have := sum_take_le fs i j h
  omega

theorem take_append_le : ∀ (fs more : List Field) (i : Nat), i ≤ fs.length →
    (fs ++ more).take i = fs.take i
  | _, _, 0, _ => by simp
  | f :: fs, more, i + 1, h => by
    simp only [List.cons_append, List.take_succ_cons, List.cons.injEq, true_and]
    exact take_append_le fs more i (by simpa using h)
  | [], _, i + 1, h => by simp at h

theorem fieldPos_append (k : Nat) (fs more : List Field) (i : Nat) (h : i ≤ fs.length) :
    fieldPos k (fs ++ more) i = fieldPos k fs i := by
  unfold fieldPos
  rw [take_append_le fs more i h]

theorem getD_append_left : ∀ (fs more : List Field) (i : Nat) (d : Field), i < fs.length →
    (fs ++ more).getD i d = fs.getD i d
  | f :: fs, more, 0, d, _ => rfl
  | f :: fs, more, i + 1, d, h => by
    simp only [List.cons_append, List.getD_cons_succ]
    exact getD_append_left fs more i d (by simpa using h)
  | [], _, _, _, h => by simp at h

theorem getD_last : ∀ (fs : List Field) (f : Field) (d : Field),
    (fs ++ [f]).getD fs.length d = f
  | [], _, _ => rfl
  | g :: fs, f, d => by
    simp only [List.cons_append, List.length_cons, List.getD_cons_succ]
    exact getD_last fs f d

theorem fieldEnd_append (k : Nat) (fs : List Field) (f : Field) :
    fieldEnd k (fs ++ [f]) = fieldEnd k fs + encLen f := by
  unfold fieldEnd
  rw [show (fs ++ [f]).length = fs.length + 1 by simp,
    fieldPos_succ k (fs ++ [f]) fs.length (by simp),
    fieldPos_append k fs [f] fs.length le_rfl, getD_last]

theorem Tuple.add_field_eq (t : Tuple) (f : Field) : t.add_field f = t.addBytes f.encode := by
  cases f <;> rfl

theorem encode_bytes_lt {f : Field} (h : f.WF) : ∀ b ∈ f.encode, b < 256 := by
  cases f with
  | uintF v => exact mp_encode_uint_bytes_lt v
  | strF s => exact mp_encode_string_bytes_lt h.2

/-!  The layout invariant is preserved by `Tuple::add`. -/

theorem addBytes_inv (k : Nat) (fs : List Field) (f : Field) (t : Tuple)
    (hk : 1 ≤ k) (hwf : f.WF) (hinv : TupleInv k fs t) :
    TupleInv k (fs ++ [f]) (t.addBytes f.encode) := by
  obtain ⟨hnum, hfc, hdu, hffo, hoff, hbytes⟩ := hinv
  have hLlt : ∀ b ∈ f.encode, b < 256 := encode_bytes_lt hwf
  have hpos0 : (k - 1) * 4 ≤ t.data_used := by
    rw [hdu]
    have := fieldPos_mono k fs (Nat.zero_le fs.length)
    rw [fieldPos_zero] at this
    exact this
  refine ⟨hnum, ?_, ?_, ?_, ?_, ?_⟩
  · simp [Tuple.addBytes, hfc]
  · simp only [Tuple.addBytes, hdu, fieldEnd_append]
    rfl
  · intro _
    simp only [Tuple.addBytes]
    by_cases h0 : t.field_count = 0
    · rw [if_pos h0]
      have hfs : fs = [] := List.length_eq_zero.mp (by omega)
      subst hfs
      rw [hdu, fieldPos_zero]
      rfl
    · rw [if_neg h0]
      have hne : fs.length ≠ 0 := by omega
      rw [hffo hne, fieldPos_append k fs [f] 0 (by omega)]
  · intro i hi1 hik hilen
    simp only [Tuple.addBytes]
    by_cases h0 : t.field_count = 0
    · have hfs : fs = [] := List.length_eq_zero.mp (by omega)
      subst hfs
      simp at hilen
      omega
    · rw [if_neg h0]
      simp only [List.length_append, List.length_singleton] at hilen
      by_cases hnew : i = fs.length
      · -- the slot written by this append
        subst hnew
        have hcase : t.field_count < t.num_offsets := by omega
        rw [if_pos hcase, hfc]
        have h4 : (leBytes 4 t.data_used).length = 4 := leBytes_length 4 _
        have e1 : readBytes
            (writeBytes (writeBytes t.data t.data_used f.encode)
              ((fs.length - 1) * 4) (leBytes 4 t.data_used))
            ((fs.length - 1) * 4) 4 = leBytes 4 t.data_used := by
          rw [← h4]
          exact readBytes_writeBytes _ _ _ (leBytes_lt 4 _)
        rw [readLE_eq_leVal, e1, leVal_leBytes, hdu,
          fieldPos_append k fs [f] fs.length le_rfl]
        norm_num [fieldEnd]
      · -- an old slot, untouched by both writes
        have hilt : i < fs.length := by omega
        have e2 : ∀ dd : Nat → Nat,
            readBytes (writeBytes dd t.data_used f.encode) ((i - 1) * 4) 4 =
              readBytes dd ((i - 1) * 4) 4 := fun dd =>
          readBytes_writeBytes_left _ _ _ _ _ (by omega)
        have goal2 : readLE t.data ((i - 1) * 4) 4 = fieldPos k (fs ++ [f]) i % 2 ^ 32 := by
          rw [hoff i hi1 (by omega) hilt, fieldPos_append k fs [f] i (by omega)]
        by_cases hcase : t.field_count < t.num_offsets
        · rw [if_pos hcase, hfc]
          have e1 : readBytes
              (writeBytes (writeBytes t.data t.data_used f.encode)
                ((fs.length - 1) * 4) (leBytes 4 t.data_used))
              ((i - 1) * 4) 4 =
              readBytes (writeBytes t.data t.data_used f.encode) ((i - 1) * 4) 4 :=
            readBytes_writeBytes_left _ _ _ _ _ (by omega)
          rw [readLE_eq_leVal, e1, e2, ← readLE_eq_leVal]
          exact goal2
        · rw [if_neg hcase, readLE_eq_leVal, e2, ← readLE_eq_leVal]
          exact goal2
  · intro i hilen
    simp only [Tuple.addBytes]
    simp only [List.length_append, List.length_singleton] at hilen
    by_cases hnew : i = fs.length
    · -- the newly appended field
      subst hnew
      rw [getD_last, fieldPos_append k fs [f] fs.length le_rfl]
      have hdu2 : fieldPos k fs fs.length = t.data_used := by rw [hdu]; rfl
      rw [hdu2]
      have fresh : readBytes (writeBytes t.data t.data_used f.encode) t.data_used
          (encLen f) = f.encode := readBytes_writeBytes _ _ _ hLlt
      by_cases h0 : t.field_count = 0
      · rw [if_pos h0]; exact fresh
      · rw [if_neg h0]
        by_cases hcase : t.field_count < t.num_offsets
        · rw [if_pos hcase, hfc]
          have hfck : fs.length < k := by rw [← hfc, ← hnum]; exact hcase
          have e1 : readBytes
              (writeBytes (writeBytes t.data t.data_used f.encode)
                ((fs.length - 1) * 4) (leBytes 4 t.data_used))
              t.data_used (encLen f) =
              readBytes (writeBytes t.data t.data_used f.encode) t.data_used (encLen f) := by
            apply readBytes_writeBytes_right
            rw [leBytes_length]
            omega
          rw [e1]; exact fresh
        · rw [if_neg hcase]; exact fresh
    · -- an old field, untouched by both writes
      have hilt : i < fs.length := by omega
      rw [getD_append_left fs [f] i _ hilt, fieldPos_append k fs [f] i (by omega)]
      have hnext : fieldPos k fs i + encLen (fs.getD i (.uintF 0)) ≤ t.data_used := by
        rw [hdu, ← fieldPos_succ k fs i hilt]
        exact fieldPos_mono k fs (by omega)
      have hfp0 : (k - 1) * 4 ≤ fieldPos k fs i := by
        have := fieldPos_mono k fs (Nat.zero_le i)
        rw [fieldPos_zero] at this
        exact this
      have e2 : readBytes (writeBytes t.data t.data_used f.encode) (fieldPos k fs i)
          (encLen (fs.getD i (.uintF 0))) =
          readBytes t.data (fieldPos k fs i) (encLen (fs.getD i (.uintF 0))) :=
        readBytes_writeBytes_left _ _ _ _ _ (by omega)
      by_cases h0 : t.field_count = 0
      · rw [if_pos h0, e2]; exact hbytes i hilt
      · rw [if_neg h0]
        by_cases hcase : t.field_count < t.num_offsets
        · rw [if_pos hcase, hfc]
          have hfck : fs.length < k := by rw [← hfc, ← hnum]; exact hcase
          have e1 : readBytes
              (writeBytes (writeBytes t.data t.data_used f.encode)
                ((fs.length - 1) * 4) (leBytes 4 t.data_used))
              (fieldPos k fs i) (encLen (fs.getD i (.uintF 0))) =
              readBytes (writeBytes t.data t.data_used f.encode) (fieldPos k fs i)
                (encLen (fs.getD i (.uintF 0))) := by
            apply readBytes_writeBytes_right
            rw [leBytes_length]
            omega
          rw [e1, e2]; exact hbytes i hilt
        · rw [if_neg hcase, e2]; exact hbytes i hilt

theorem foldl_inv (k : Nat) (hk : 1 ≤ k) : ∀ (fs2 fs1 : List Field) (t : Tuple),
    TupleInv k fs1 t → (∀ f ∈ fs2, f.WF) →
    TupleInv k (fs1 ++ fs2) (fs2.foldl Tuple.add_field t)
  | [], fs1, t, hinv, _ => by simpa using hinv
  | f :: fs2, fs1, t, hinv, hwf => by
    have step : TupleInv k (fs1 ++ [f]) (t.add_field f) := by
      rw [Tuple.add_field_eq]
      exact addBytes_inv k fs1 f t hk (hwf f (by simp)) hinv
    have rest := foldl_inv k hk fs2 (fs1 ++ [f]) (t.add_field f) step
      (fun g hg => hwf g (by simp [hg]))
    simpa using rest

theorem buildTuple_inv (k : Nat) (fs : List Field) (hk : 1 ≤ k)
    (hwf : ∀ f ∈ fs, f.WF) : TupleInv k fs (buildTuple k fs) := by
  have base : TupleInv k [] (emptyTuple.reset k) := by
    refine ⟨rfl, rfl, ?_, by simp, by simp, by simp⟩
    simp [Tuple.reset, emptyTuple, fieldEnd, fieldPos]
  have := foldl_inv k hk fs [] (emptyTuple.reset k) base hwf
  simpa [buildTuple] using this

/-!  Field access and per-field decoding on a built tuple. -/

theorem getD_mem : ∀ (fs : List Field) (i : Nat) (d : Field), i < fs.length →
    fs.getD i d ∈ fs
  | f :: fs, 0, d, _ => by simp
  | f :: fs, i + 1, d, h => by
    simp only [List.getD_cons_succ]
    exact List.mem_cons_of_mem f (getD_mem fs i d (by simpa using h))
  | [], _, _, h => by simp at h

theorem get_field_eq {k : Nat} {fs : List Field} {t : Tuple} (hinv : TupleInv k fs t)
    (hsz : fieldEnd k fs ≤ MAX_TEST_TUPLE_DATA_SIZE) {i : Nat}
    (hik : i < k) (hilen : i < fs.length) : t.get_field i = fieldPos k fs i := by
  obtain ⟨hnum, hfc, hdu, hffo, hoff, hbytes⟩ := hinv
  have hsz' : MAX_TEST_TUPLE_DATA_SIZE = 256 := rfl
  have hb : fieldPos k fs i ≤ 256 := by
    have h1 := fieldPos_mono k fs (le_of_lt hilen)
    have h2 : fieldPos k fs fs.length = fieldEnd k fs := rfl
    omega
  unfold Tuple.get_field
  by_cases h0 : i = 0
  · subst h0
    rw [if_pos rfl, hffo (by omega)]
    exact Nat.mod_eq_of_lt (by omega)
  · rw [if_neg h0]
    unfold Tuple.get_offset
    rw [hoff i (by omega) hik hilen]
    exact Nat.mod_eq_of_lt (by omega)

theorem field_decode_uint {k : Nat} {fs : List Field} {t : Tuple} (hinv : TupleInv k fs t)
    (hwf : ∀ f ∈ fs, f.WF) {i v : Nat} (hilen : i < fs.length)
    (hv : fs.getD i (.uintF 0) = .uintF v) :
    mp_decode_uint t.data (fieldPos k fs i) = some (v, fieldPos k fs (i + 1)) := by
  have hb := hinv.2.2.2.2.2 i hilen
  rw [hv] at hb
  have hwfv : v < 2 ^ 64 := by
    have := hwf _ (getD_mem fs i (.uintF 0) hilen)
    rw [hv] at this
    exact this
  have := mp_decode_uint_of_bytes hwfv (by exact hb)
  rw [this, fieldPos_succ k fs i hilen, hv]
  rfl

theorem field_decode_uint_none {k : Nat} {fs : List Field} {t : Tuple}
    (hinv : TupleInv k fs t) {i : Nat} {s : List Nat} (hilen : i < fs.length)
    (hv : fs.getD i (.uintF 0) = .strF s) :
    mp_decode_uint t.data (fieldPos k fs i) = none := by
  have hb := hinv.2.2.2.2.2 i hilen
  rw [hv] at hb
  exact mp_decode_uint_none_of_string (by exact hb)

theorem field_decode_string {k : Nat} {fs : List Field} {t : Tuple} (hinv : TupleInv k fs t)
    (hwf : ∀ f ∈ fs, f.WF) {i : Nat} {s : List Nat} (hilen : i < fs.length)
    (hv : fs.getD i (.uintF 0) = .strF s) :
    mp_decode_string t.data (fieldPos k fs i) =
      some (fieldPos k fs i + (strHeader s.length).length, s.length, fieldPos k fs (i + 1)) ∧
    readBytes t.data (fieldPos k fs i + (strHeader s.length).length) s.length = s := by
  have hb := hinv.2.2.2.2.2 i hilen
  rw [hv] at hb
  have hwfs : s.length < 2 ^ 32 := by
    have := hwf _ (getD_mem fs i (.uintF 0) hilen)
    rw [hv] at this
    exact this.1
  obtain ⟨hdec, hpay⟩ := mp_decode_string_of_bytes hwfs (by exact hb)
  rw [hdec, fieldPos_succ k fs i hilen, hv]
  exact ⟨rfl, hpay⟩

theorem field_decode_string_none {k : Nat} {fs : List Field} {t : Tuple}
    (hinv : TupleInv k fs t) {i v : Nat} (hilen : i < fs.length)
    (hv : fs.getD i (.uintF 0) = .uintF v) :
    mp_decode_string t.data (fieldPos k fs i) = none := by
  have hb := hinv.2.2.2.2.2 i hilen
  rw [hv] at hb
  exact mp_decode_string_none_of_uint (by exact hb)

/-!  `memcmp` over two built buffers agrees with `memcmp` on the byte
lists. -/

theorem min_eq_ite (a b : Nat) : (if a < b then a else b) = min a b := by
  rw [Nat.min_def]
  split_ifs <;> omega

theorem memcmpMem_eq : ∀ (n : Nat) (s1 s2 : List Nat) (m1 m2 : Nat → Nat) (p1 p2 : Nat),
    n ≤ s1.length → n ≤ s2.length →
    readBytes m1 p1 n = s1.take n → readBytes m2 p2 n = s2.take n →
    memcmpMem m1 m2 p1 p2 n = memcmpList n s1 s2
  | 0, _, _, _, _, _, _, _, _, _, _ => rfl
  | n + 1, [], s2, m1, m2, p1, p2, h1, h2, r1, r2 => by simp at h1
  | n + 1, a :: s1, [], m1, m2, p1, p2, h1, h2, r1, r2 => by simp at h2
  | n + 1, a :: s1, b :: s2, m1, m2, p1, p2, h1, h2, r1, r2 => by
    simp only [List.take_succ_cons] at r1 r2
    obtain ⟨hc1, ht1⟩ := readBytes_cons_inv r1
    obtain ⟨hc2, ht2⟩ := readBytes_cons_inv r2
    show (if readByte m1 p1 = readByte m2 p2 then memcmpMem m1 m2 (p1 + 1) (p2 + 1) n
          else (readByte m1 p1 : Int) - readByte m2 p2) = _
    rw [hc1, hc2]
    show _ = (if a = b then memcmpList n s1 s2 else (a : Int) - b)
    by_cases hab : a = b
    · rw [if_pos hab, if_pos hab]
      exact memcmpMem_eq n s1 s2 m1 m2 (p1 + 1) (p2 + 1) (by simpa using h1)
        (by simpa using h2) ht1 ht2
    · rw [if_neg hab, if_neg hab]

/-!  Characterization of one comparator step at field boundaries. -/

theorem stepCompare_uint_fields {kA kB : Nat} {fsA fsB : List Field} {tA tB : Tuple}
    (hA : TupleInv kA fsA tA) (hB : TupleInv kB fsB tB)
    (hwA : ∀ f ∈ fsA, f.WF) (hwB : ∀ f ∈ fsB, f.WF)
    {iA iB vA vB : Nat} (hiA : iA < fsA.length) (hiB : iB < fsB.length)
    (hvA : fsA.getD iA (.uintF 0) = .uintF vA) (hvB : fsB.getD iB (.uintF 0) = .uintF vB) :
    stepCompare .UINT tA.data (fieldPos kA fsA iA) tB.data (fieldPos kB fsB iB) =
      some (cmpU vA vB, fieldPos kA fsA (iA + 1), fieldPos kB fsB (iB + 1)) := by
  unfold stepCompare
  rw [if_pos rfl, field_decode_uint hA hwA hiA hvA, field_decode_uint hB hwB hiB hvB]
  rfl

theorem stepCompare_str_fields {kA kB : Nat} {fsA fsB : List Field} {tA tB : Tuple}
    (hA : TupleInv kA fsA tA) (hB : TupleInv kB fsB tB)
    (hwA : ∀ f ∈ fsA, f.WF) (hwB : ∀ f ∈ fsB, f.WF)
    {ty : FieldType} (hty : ty ≠ .UINT)
    {iA iB : Nat} {sA sB : List Nat} (hiA : iA < fsA.length) (hiB : iB < fsB.length)
    (hvA : fsA.getD iA (.uintF 0) = .strF sA) (hvB : fsB.getD iB (.uintF 0) = .strF sB) :
    stepCompare ty tA.data (fieldPos kA fsA iA) tB.data (fieldPos kB fsB iB) =
      some (cmpStr sA sB, fieldPos kA fsA (iA + 1), fieldPos kB fsB (iB + 1)) := by
  obtain ⟨hdecA, hpayA⟩ := field_decode_string hA hwA hiA hvA
  obtain ⟨hdecB, hpayB⟩ := field_decode_string hB hwB hiB hvB
  unfold stepCompare
  rw [if_neg hty, hdecA, hdecB]
  simp only [Option.some_bind]
  have hmin1 : min sA.length sB.length ≤ sA.length := Nat.min_le_left _ _
  have hmin2 : min sA.length sB.length ≤ sB.length := Nat.min_le_right _ _
  have htake1 : readBytes tA.data (fieldPos kA fsA iA + (strHeader sA.length).length)
      (min sA.length sB.length) = sA.take (min sA.length sB.length) := by
    rw [← readBytes_take tA.data _ sA.length _ hmin1, hpayA]
  have htake2 : readBytes tB.data (fieldPos kB fsB iB + (strHeader sB.length).length)
      (min sA.length sB.length) = sB.take (min sA.length sB.length) := by
    rw [← readBytes_take tB.data _ sB.length _ hmin2, hpayB]
  rw [min_eq_ite, memcmpMem_eq (min sA.length sB.length) sA sB _ _ _ _ hmin1 hmin2
    htake1 htake2]
  rfl

theorem stepCompare_success_cursors {kA kB : Nat} {fsA fsB : List Field} {tA tB : Tuple}
    (hA : TupleInv kA fsA tA) (hB : TupleInv kB fsB tB)
    (hwA : ∀ f ∈ fsA, f.WF) (hwB : ∀ f ∈ fsB, f.WF)
    (ty : FieldType) {iA iB : Nat} (hiA : iA < fsA.length) (hiB : iB < fsB.length)
    {r : Int} {n1 n2 : Nat}
    (h : stepCompare ty tA.data (fieldPos kA fsA iA) tB.data (fieldPos kB fsB iB) =
      some (r, n1, n2)) :
    n1 = fieldPos kA fsA (iA + 1) ∧ n2 = fieldPos kB fsB (iB + 1) := by
  unfold stepCompare at h
  by_cases hty : ty = FieldType.UINT
  · rw [if_pos hty] at h
    cases hfA : fsA.getD iA (.uintF 0) with
    | strF sA => rw [field_decode_uint_none hA hiA hfA] at h; simp at h
    | uintF vA =>
      rw [field_decode_uint hA hwA hiA hfA] at h
      cases hfB : fsB.getD iB (.uintF 0) with
      | strF sB => rw [field_decode_uint_none hB hiB hfB] at h; simp at h
      | uintF vB =>
        rw [field_decode_uint hB hwB hiB hfB] at h
        simp only [Option.some_bind, Option.some.injEq, Prod.mk.injEq] at h
        exact ⟨h.2.1.symm, h.2.2.symm⟩
  · rw [if_neg hty] at h
    cases hfA : fsA.getD iA (.uintF 0) with
    | uintF vA => rw [field_decode_string_none hA hiA hfA] at h; simp at h
    | strF sA =>
      rw [(field_decode_string hA hwA hiA hfA).1] at h
      cases hfB : fsB.getD iB (.uintF 0) with
      | uintF vB => rw [field_decode_string_none hB hiB hfB] at h; simp at h
      | strF sB =>
        rw [(field_decode_string hB hwB hiB hfB).1] at h
        simp only [Option.some_bind, Option.some.injEq, Prod.mk.injEq] at h
        exact ⟨h.2.1.symm, h.2.2.symm⟩

/-!  The two comparator loop invariants: cursor-reuse transparency and
correctness against the lexicographic value comparison. -/

theorem cursor_eq_fieldPos (kA : Nat) (fsA : List Field) (p : KeyPart) (prevNo : Option Nat) {c gf : Nat}
    (hgf : gf = fieldPos kA fsA p.field_no)
    (hentry : ∀ q : Nat, prevNo = some q → p.field_no = q + 1 →
      c = fieldPos kA fsA p.field_no) :
    (if reposition prevNo p.field_no then gf else c) = fieldPos kA fsA p.field_no := by
  cases prevNo with
  | none => rw [if_pos (by trivial : reposition none p.field_no)]; exact hgf
  | some q =>
    by_cases hq : p.field_no = q + 1
    · rw [if_neg (by simp [reposition, hq])]
      exact hentry q rfl hq
    · rw [if_pos (by simpa [reposition] using hq)]
      exact hgf

theorem auxEquiv {kA kB : Nat} {fsA fsB : List Field} {tA tB : Tuple}
    (hA : TupleInv kA fsA tA) (hB : TupleInv kB fsB tB)
    (hwA : ∀ f ∈ fsA, f.WF) (hwB : ∀ f ∈ fsB, f.WF)
    (hszA : fieldEnd kA fsA ≤ MAX_TEST_TUPLE_DATA_SIZE)
    (hszB : fieldEnd kB fsB ≤ MAX_TEST_TUPLE_DATA_SIZE)
    (ty0 : FieldType) :
    ∀ ps : List KeyPart,
    (∀ p ∈ ps, p.field_no < kA ∧ p.field_no < fsA.length ∧
      p.field_no < kB ∧ p.field_no < fsB.length) →
    ∀ (prevNo : Option Nat) (c1 c2 : Nat),
    (∀ q p, prevNo = some q → (ps.headD ⟨.UNDEFINED, 0⟩) = p → p.field_no = q + 1 →
      c1 = fieldPos kA fsA p.field_no ∧ c2 = fieldPos kB fsB p.field_no) →
    comparePartsAux ty0 tA tB ps prevNo c1 c2 = referencePartsAux ty0 tA tB ps
  | [], _, _, _, _, _ => rfl
  | p :: rest, hps, prevNo, c1, c2, hentry => by
    obtain ⟨hbA, hlA, hbB, hlB⟩ := hps p (by simp)
    have hgfA : tA.get_field p.field_no = fieldPos kA fsA p.field_no :=
      get_field_eq hA hszA hbA hlA
    have hgfB : tB.get_field p.field_no = fieldPos kB fsB p.field_no :=
      get_field_eq hB hszB hbB hlB
    have hc1' := cursor_eq_fieldPos kA fsA p prevNo (c := c1)
      hgfA (fun q hq hf => (hentry q p hq rfl hf).1)
    have hc2' := cursor_eq_fieldPos kB fsB p prevNo (c := c2)
      hgfB (fun q hq hf => (hentry q p hq rfl hf).2)
    simp only [comparePartsAux, referencePartsAux]
    rw [hc1', hc2', hgfA, hgfB]
    cases hstep : stepCompare ty0 tA.data (fieldPos kA fsA p.field_no) tB.data
        (fieldPos kB fsB p.field_no) with
    | none => rfl
    | some v =>
      obtain ⟨r, n1, n2⟩ := v
      show (if r ≠ 0 then some r else comparePartsAux ty0 tA tB rest (some p.field_no) n1 n2)
        = (if r ≠ 0 then some r else referencePartsAux ty0 tA tB rest)
      by_cases hr : r = 0
      · rw [if_neg (not_not_intro hr), if_neg (not_not_intro hr)]
        refine auxEquiv hA hB hwA hwB hszA hszB ty0 rest (fun p' hp' => hps p' (by simp [hp'])) (some p.field_no)
          n1 n2 ?_
        intro q' p' hq' hh' hf'
        obtain rfl : p.field_no = q' := Option.some.inj hq'
        have hcur := stepCompare_success_cursors hA hB hwA hwB ty0 hlA hlB hstep
        rw [hf']
        exact hcur
      · rw [if_pos hr, if_pos hr]

theorem auxCorrect {kA kB : Nat} {fsA fsB : List Field} {tA tB : Tuple}
    (hA : TupleInv kA fsA tA) (hB : TupleInv kB fsB tB)
    (hwA : ∀ f ∈ fsA, f.WF) (hwB : ∀ f ∈ fsB, f.WF)
    (hszA : fieldEnd kA fsA ≤ MAX_TEST_TUPLE_DATA_SIZE)
    (hszB : fieldEnd kB fsB ≤ MAX_TEST_TUPLE_DATA_SIZE)
    (ty0 : FieldType) :
    ∀ ps : List KeyPart,
    (∀ p ∈ ps, p.field_no < kA ∧ p.field_no < fsA.length ∧
      p.field_no < kB ∧ p.field_no < fsB.length ∧
      (fsA.getD p.field_no (.uintF 0)).ftype = p.field_type ∧
      (fsB.getD p.field_no (.uintF 0)).ftype = p.field_type ∧
      p.field_type = ty0) →
    ∀ (prevNo : Option Nat) (c1 c2 : Nat),
    (∀ q p, prevNo = some q → (ps.headD ⟨.UNDEFINED, 0⟩) = p → p.field_no = q + 1 →
      c1 = fieldPos kA fsA p.field_no ∧ c2 = fieldPos kB fsB p.field_no) →
    comparePartsAux ty0 tA tB ps prevNo c1 c2 =
      some (lexCmp (keyVals fsA ps) (keyVals fsB ps))
  | [], _, _, _, _, _ => rfl
  | p :: rest, hps, prevNo, c1, c2, hentry => by
    obtain ⟨hbA, hlA, hbB, hlB, htyA, htyB, hty0⟩ := hps p (by simp)
    have hgfA : tA.get_field p.field_no = fieldPos kA fsA p.field_no :=
      get_field_eq hA hszA hbA hlA
    have hgfB : tB.get_field p.field_no = fieldPos kB fsB p.field_no :=
      get_field_eq hB hszB hbB hlB
    have hc1' := cursor_eq_fieldPos kA fsA p prevNo (c := c1)
      hgfA (fun q hq hf => (hentry q p hq rfl hf).1)
    have hc2' := cursor_eq_fieldPos kB fsB p prevNo (c := c2)
      hgfB (fun q hq hf => (hentry q p hq rfl hf).2)
    simp only [comparePartsAux, keyVals, List.map_cons]
    rw [hc1', hc2']
    have hIH : ∀ n1 n2, n1 = fieldPos kA fsA (p.field_no + 1) →
        n2 = fieldPos kB fsB (p.field_no + 1) →
        comparePartsAux ty0 tA tB rest (some p.field_no) n1 n2 =
          some (lexCmp (keyVals fsA rest) (keyVals fsB rest)) := by
      intro n1 n2 e1 e2
      refine auxCorrect hA hB hwA hwB hszA hszB ty0 rest (fun p' hp' => hps p' (by simp [hp'])) (some p.field_no)
        n1 n2 ?_
      intro q' p' hq' hh' hf'
      obtain rfl : p.field_no = q' := Option.some.inj hq'
      rw [hf']
      exact ⟨e1, e2⟩
    cases hfA : fsA.getD p.field_no (.uintF 0) with
    | uintF vA =>
      rw [hfA] at htyA
      simp only [Field.ftype] at htyA
      cases hfB : fsB.getD p.field_no (.uintF 0) with
      | strF sB =>
        rw [hfB] at htyB
        simp only [Field.ftype] at htyB
        rw [← htyA] at htyB
        exact absurd htyB (by simp)
      | uintF vB =>
        rw [← hty0, ← htyA,
          stepCompare_uint_fields hA hB hwA hwB hlA hlB hfA hfB]
        show (if cmpU vA vB ≠ 0 then some (cmpU vA vB)
              else comparePartsAux (.UINT) tA tB rest (some p.field_no)
                (fieldPos kA fsA (p.field_no + 1)) (fieldPos kB fsB (p.field_no + 1)))
          = some (lexCmp (Field.uintF vA :: keyVals fsA rest)
              (Field.uintF vB :: keyVals fsB rest))
        have hlex : lexCmp (Field.uintF vA :: keyVals fsA rest)
            (Field.uintF vB :: keyVals fsB rest) =
            if cmpU vA vB ≠ 0 then cmpU vA vB
            else lexCmp (keyVals fsA rest) (keyVals fsB rest) := by
          simp only [lexCmp, fieldCmp]
        rw [hlex]
        by_cases hr : cmpU vA vB = 0
        · rw [if_neg (not_not_intro hr), if_neg (not_not_intro hr)]
          have e := hIH _ _ rfl rfl
          rw [← hty0, ← htyA] at e
          exact e
        · rw [if_pos hr, if_pos hr]
    | strF sA =>
      rw [hfA] at htyA
      simp only [Field.ftype] at htyA
      cases hfB : fsB.getD p.field_no (.uintF 0) with
      | uintF vB =>
        rw [hfB] at htyB
        simp only [Field.ftype] at htyB
        rw [← htyA] at htyB
        exact absurd htyB (by simp)
      | strF sB =>
        have htyne : ty0 ≠ FieldType.UINT := by rw [← hty0, ← htyA]; simp
        rw [stepCompare_str_fields hA hB hwA hwB htyne hlA hlB hfA hfB]
        show (if cmpStr sA sB ≠ 0 then some (cmpStr sA sB)
              else comparePartsAux ty0 tA tB rest (some p.field_no)
                (fieldPos kA fsA (p.field_no + 1)) (fieldPos kB fsB (p.field_no + 1)))
          = some (lexCmp (Field.strF sA :: keyVals fsA rest)
              (Field.strF sB :: keyVals fsB rest))
        have hlex : lexCmp (Field.strF sA :: keyVals fsA rest)
            (Field.strF sB :: keyVals fsB rest) =
            if cmpStr sA sB ≠ 0 then cmpStr sA sB
            else lexCmp (keyVals fsA rest) (keyVals fsB rest) := by
          simp only [lexCmp, fieldCmp]
        rw [hlex]
        by_cases hr : cmpStr sA sB = 0
        · rw [if_neg (not_not_intro hr), if_neg (not_not_intro hr)]
          exact hIH _ _ rfl rfl
        · rw [if_pos hr, if_pos hr]

/-!  The value-level comparisons define a strict total lexicographic
order. -/

theorem cmpU_succ (a b : Nat) : cmpU (a + 1) (b + 1) = cmpU a b := by
  simp only [cmpU, gt_iff_lt, Nat.add_lt_add_iff_right]

theorem cmpStr_eq_lexCmpBytes : ∀ s1 s2 : List Nat, cmpStr s1 s2 = lexCmpBytes s1 s2
  | [], [] => by decide
  | [], b :: bs => by
    show cmpStr [] (b :: bs) = -1
    unfold cmpStr
    simp [memcmpList, cmpU]
  | a :: as, [] => by
    show cmpStr (a :: as) [] = 1
    unfold cmpStr
    simp [memcmpList, cmpU]
  | a :: as, b :: bs => by
    have IH := cmpStr_eq_lexCmpBytes as bs
    show cmpStr (a :: as) (b :: bs) = if a = b then lexCmpBytes as bs else (a : Int) - b
    unfold cmpStr
    simp only [List.length_cons, Nat.succ_min_succ, memcmpList]
    by_cases hab : a = b
    · rw [if_pos hab, if_pos hab, ← IH]
      show (if memcmpList (min as.length bs.length) as bs ≠ 0
            then memcmpList (min as.length bs.length) as bs
            else cmpU (as.length + 1) (bs.length + 1)) = cmpStr as bs
      rw [cmpU_succ]
      rfl
    · rw [if_neg hab, if_neg hab, if_pos (by omega : (a : Int) - b ≠ 0)]

theorem lexCmpBytes_zero_iff : ∀ s1 s2 : List Nat, lexCmpBytes s1 s2 = 0 ↔ s1 = s2
  | [], [] => by simp [lexCmpBytes]
  | [], _ :: _ => by simp [lexCmpBytes]
  | _ :: _, [] => by simp [lexCmpBytes]
  | a :: as, b :: bs => by
    simp only [lexCmpBytes]
    by_cases hab : a = b
    · subst hab
      rw [if_pos rfl, lexCmpBytes_zero_iff as bs]
      simp
    · rw [if_neg hab]
      simp only [List.cons.injEq]
      constructor
      · intro h; exact absurd (by omega : a = b) hab
      · intro h; exact absurd h.1 hab

theorem lexCmpBytes_neg_iff : ∀ s1 s2 : List Nat, lexCmpBytes s1 s2 < 0 ↔ bytesLt s1 s2
  | [], [] => by norm_num [lexCmpBytes, bytesLt]
  | [], _ :: _ => by norm_num [lexCmpBytes, bytesLt]
  | _ :: _, [] => by norm_num [lexCmpBytes, bytesLt]
  | a :: as, b :: bs => by
    simp only [lexCmpBytes, bytesLt]
    by_cases hab : a = b
    · subst hab
      rw [if_pos rfl, lexCmpBytes_neg_iff as bs]
      simp
    · rw [if_neg hab]
      constructor
      · intro h; exact Or.inl (by omega)
      · rintro (h | ⟨he, -⟩)
        · omega
        · exact absurd he hab

theorem lexCmpBytes_antisym : ∀ s1 s2 : List Nat, lexCmpBytes s2 s1 = -lexCmpBytes s1 s2
  | [], [] => by norm_num [lexCmpBytes]
  | [], _ :: _ => by norm_num [lexCmpBytes]
  | _ :: _, [] => by norm_num [lexCmpBytes]
  | a :: as, b :: bs => by
    simp only [lexCmpBytes]
    by_cases hab : a = b
    · subst hab
      rw [if_pos rfl, if_pos rfl]
      exact lexCmpBytes_antisym as bs
    · rw [if_neg hab, if_neg (Ne.symm hab)]
      omega

theorem bytesLt_trans : ∀ (s1 s2 s3 : List Nat),
    bytesLt s1 s2 → bytesLt s2 s3 → bytesLt s1 s3
  | _, [], [], _, h2 => absurd h2 (by simp [bytesLt])
  | _, _ :: _, [], _, h2 => absurd h2 (by simp [bytesLt])
  | [], [], _ :: _, h1, _ => absurd h1 (by simp [bytesLt])
  | _ :: _, [], _ :: _, h1, _ => absurd h1 (by simp [bytesLt])
  | [], _ :: _, _ :: _, _, _ => by simp [bytesLt]
  | a :: as, b :: bs, c :: cs, h1, h2 => by
    simp only [bytesLt] at h1 h2 ⊢
    rcases h1 with h1 | ⟨rfl, h1⟩
    · rcases h2 with h2 | ⟨rfl, h2⟩
      · exact Or.inl (by omega)
      · exact Or.inl h1
    · rcases h2 with h2 | ⟨rfl, h2⟩
      · exact Or.inl h2
      · exact Or.inr ⟨rfl, bytesLt_trans as bs cs h1 h2⟩

theorem fieldCmp_neg_iff : ∀ f g : Field, fieldCmp f g < 0 ↔ fieldLt f g
  | .uintF a, .uintF b => by
    show cmpU a b < 0 ↔ a < b
    unfold cmpU
    split_ifs <;> omega
  | .strF a, .strF b => by
    show cmpStr a b < 0 ↔ bytesLt a b
    rw [cmpStr_eq_lexCmpBytes]
    exact lexCmpBytes_neg_iff a b
  | .uintF _, .strF _ => by
    show (0 : Int) < 0 ↔ False
    simp
  | .strF _, .uintF _ => by
    show (0 : Int) < 0 ↔ False
    simp

theorem fieldCmp_zero_iff : ∀ f g : Field, f.ftype = g.ftype → (fieldCmp f g = 0 ↔ f = g)
  | .uintF a, .uintF b, _ => by
    show cmpU a b = 0 ↔ Field.uintF a = Field.uintF b
    unfold cmpU
    simp only [Field.uintF.injEq]
    split_ifs <;> (try simp) <;> omega
  | .strF a, .strF b, _ => by
    show cmpStr a b = 0 ↔ Field.strF a = Field.strF b
    rw [cmpStr_eq_lexCmpBytes, lexCmpBytes_zero_iff]
    simp
  | .uintF _, .strF _, h => absurd h (by simp [Field.ftype])
  | .strF _, .uintF _, h => absurd h (by simp [Field.ftype])

theorem fieldCmp_antisym : ∀ f g : Field, fieldCmp g f = -fieldCmp f g
  | .uintF a, .uintF b => by
    show cmpU b a = -cmpU a b
    unfold cmpU
    split_ifs <;> omega
  | .strF a, .strF b => by
    show cmpStr b a = -cmpStr a b
    rw [cmpStr_eq_lexCmpBytes, cmpStr_eq_lexCmpBytes]
    exact lexCmpBytes_antisym a b
  | .uintF _, .strF _ => by
    show (0 : Int) = -0
    norm_num
  | .strF _, .uintF _ => by
    show (0 : Int) = -0
    norm_num

theorem fieldLt_trans : ∀ f g h : Field, fieldLt f g → fieldLt g h → fieldLt f h
  | .uintF _, .strF _, _, h1, _ => absurd h1 (by simp [fieldLt])
  | .strF _, .uintF _, _, h1, _ => absurd h1 (by simp [fieldLt])
  | .uintF _, .uintF _, .strF _, _, h2 => absurd h2 (by simp [fieldLt])
  | .strF _, .strF _, .uintF _, _, h2 => absurd h2 (by simp [fieldLt])
  | .uintF a, .uintF b, .uintF c, h1, h2 => by
    simp only [fieldLt] at h1 h2 ⊢
    omega
  | .strF a, .strF b, .strF c, h1, h2 => bytesLt_trans a b c h1 h2

theorem lexCmp_antisym : ∀ u v : List Field, lexCmp v u = -lexCmp u v
  | [], [] => by norm_num [lexCmp]
  | [], _ :: _ => by norm_num [lexCmp]
  | _ :: _, [] => by norm_num [lexCmp]
  | a :: as, b :: bs => by
    simp only [lexCmp]
    rw [fieldCmp_antisym a b]
    by_cases h : fieldCmp a b = 0
    · rw [if_neg (by omega : ¬ -fieldCmp a b ≠ 0), if_neg (not_not_intro h)]
      exact lexCmp_antisym as bs
    · rw [if_pos (by omega : -fieldCmp a b ≠ 0), if_pos h]

theorem lexCmp_zero_iff : ∀ u v : List Field, u.length = v.length →
    (∀ j, j < u.length → (u.getD j (.uintF 0)).ftype = (v.getD j (.uintF 0)).ftype) →
    (lexCmp u v = 0 ↔ u = v)
  | [], [], _, _ => by simp [lexCmp]
  | [], _ :: _, hlen, _ => by exact absurd hlen (by simp)
  | _ :: _, [], hlen, _ => by exact absurd hlen (by simp)
  | a :: as, b :: bs, hlen, hty => by
    have hty0 : a.ftype = b.ftype := by simpa using hty 0 (by simp)
    simp only [lexCmp]
    by_cases hc : fieldCmp a b = 0
    · have hab : a = b := (fieldCmp_zero_iff a b hty0).mp hc
      rw [if_neg (not_not_intro hc),
        lexCmp_zero_iff as bs (by simpa using hlen)
          (fun j hj => by simpa using hty (j + 1) (by simp; omega))]
      simp [hab]
    · rw [if_pos hc]
      constructor
      · intro h0; exact absurd h0 hc
      · intro he
        obtain ⟨rfl, -⟩ : a = b ∧ as = bs := by simpa using he
        exact absurd ((fieldCmp_zero_iff a a rfl).mpr rfl) hc

theorem lexCmp_neg_iff : ∀ u v : List Field, u.length = v.length →
    (∀ j, j < u.length → (u.getD j (.uintF 0)).ftype = (v.getD j (.uintF 0)).ftype) →
    (lexCmp u v < 0 ↔ keyLt u v)
  | [], [], _, _ => by norm_num [lexCmp, keyLt]
  | [], _ :: _, hlen, _ => by exact absurd hlen (by simp)
  | _ :: _, [], hlen, _ => by exact absurd hlen (by simp)
  | a :: as, b :: bs, hlen, hty => by
    have hty0 : a.ftype = b.ftype := by simpa using hty 0 (by simp)
    simp only [lexCmp, keyLt]
    by_cases hc : fieldCmp a b = 0
    · have hab : a = b := (fieldCmp_zero_iff a b hty0).mp hc
      rw [if_neg (not_not_intro hc),
        lexCmp_neg_iff as bs (by simpa using hlen)
          (fun j hj => by simpa using hty (j + 1) (by simp; omega))]
      have hnlt : ¬ fieldLt a b := by
        rw [← fieldCmp_neg_iff]
        omega
      constructor
      · intro ht; exact Or.inr ⟨hab, ht⟩
      · rintro (hlt | ⟨-, ht⟩)
        · exact absurd hlt hnlt
        · exact ht
    · rw [if_pos hc]
      rw [fieldCmp_neg_iff]
      constructor
      · intro hlt; exact Or.inl hlt
      · rintro (hlt | ⟨rfl, -⟩)
        · exact hlt
        · exact absurd ((fieldCmp_zero_iff a a rfl).mpr rfl) hc

theorem keyLt_trans : ∀ (u v w : List Field), keyLt u v → keyLt v w → keyLt u w
  | _, [], [], _, h2 => absurd h2 (by simp [keyLt])
  | _, _ :: _, [], _, h2 => absurd h2 (by simp [keyLt])
  | [], [], _ :: _, h1, _ => absurd h1 (by simp [keyLt])
  | _ :: _, [], _ :: _, h1, _ => absurd h1 (by simp [keyLt])
  | [], _ :: _, _ :: _, _, _ => by simp [keyLt]
  | a :: as, b :: bs, c :: cs, h1, h2 => by
    simp only [keyLt] at h1 h2 ⊢
    rcases h1 with h1 | ⟨rfl, h1⟩
    · rcases h2 with h2 | ⟨rfl, h2⟩
      · exact Or.inl (fieldLt_trans a b c h1 h2)
      · exact Or.inl h1
    · rcases h2 with h2 | ⟨rfl, h2⟩
      · exact Or.inl h2
      · exact Or.inr ⟨rfl, keyLt_trans as bs cs h1 h2⟩

/-!  Top-level comparator correctness for homogeneous key definitions. -/

theorem keyVals_align : ∀ (ps : List KeyPart) (fs1 fs2 : List Field),
    (∀ p ∈ ps, (fs1.getD p.field_no (.uintF 0)).ftype = p.field_type) →
    (∀ p ∈ ps, (fs2.getD p.field_no (.uintF 0)).ftype = p.field_type) →
    ∀ j, j < (keyVals fs1 ps).length →
      ((keyVals fs1 ps).getD j (.uintF 0)).ftype = ((keyVals fs2 ps).getD j (.uintF 0)).ftype
  | [], _, _, _, _, j, hj => by simp [keyVals] at hj
  | p :: ps, fs1, fs2, h1, h2, 0, _ => by
    simp only [keyVals, List.map_cons, List.getD_cons_zero]
    rw [h1 p (by simp), h2 p (by simp)]
  | p :: ps, fs1, fs2, h1, h2, j + 1, hj => by
    simp only [keyVals, List.map_cons, List.getD_cons_succ]
    exact keyVals_align ps fs1 fs2 (fun q hq => h1 q (by simp [hq]))
      (fun q hq => h2 q (by simp [hq])) j (by simpa [keyVals] using hj)

theorem keyVals_length (fs : List Field) (ps : List KeyPart) :
    (keyVals fs ps).length = ps.length := by
  simp [keyVals]

theorem default_compare_correct {kd : KeyDef} {kA kB : Nat} {fsA fsB : List Field}
    (hne : kd.parts ≠ []) (hhom : homogeneous kd)
    (hcA : kdCompat kd kA fsA) (hcB : kdCompat kd kB fsB)
    (hkA : 1 ≤ kA) (hkB : 1 ≤ kB)
    (hwA : ∀ f ∈ fsA, f.WF) (hwB : ∀ f ∈ fsB, f.WF)
    (hszA : fieldEnd kA fsA ≤ MAX_TEST_TUPLE_DATA_SIZE)
    (hszB : fieldEnd kB fsB ≤ MAX_TEST_TUPLE_DATA_SIZE) :
    default_tuple_compare kd (buildTuple kA fsA) (buildTuple kB fsB) =
      some (lexCmp (keyVals fsA kd.parts) (keyVals fsB kd.parts)) := by
  cases kd with
  | mk parts =>
    simp only [kdCompat] at hcA hcB
    cases parts with
    | nil => exact absurd rfl hne
    | cons p0 rest =>
      simp only [homogeneous, List.headD_cons] at hhom
      show comparePartsAux p0.field_type (buildTuple kA fsA) (buildTuple kB fsB)
        (p0 :: rest) none 0 0 = _
      refine auxCorrect (buildTuple_inv kA fsA hkA hwA) (buildTuple_inv kB fsB hkB hwB)
        hwA hwB hszA hszB p0.field_type (p0 :: rest) ?_ none 0 0 ?_
      · intro p hp
        obtain ⟨a1, a2, a3⟩ := hcA p hp
        obtain ⟨b1, b2, b3⟩ := hcB p hp
        exact ⟨a1, a2, b1, b2, a3, b3, hhom p hp⟩
      · intro q p hq hh hf
        exact absurd hq (by simp)

/-!  Claim theorems. -/

/-- Claim C1 (code bug).  The spec says the comparator decodes the field
selected by Key Part `i` with Key Part `i`'s own declared type for every
part `i`; the code (main.cpp, `default_tuple_compare`) tests
`def->parts[0].field_type` for every part, so part 1 of the definition
`[(field 0, UINT), (field 1, STRING)]` is decoded as a UINT.  On two
records with equal field 0 and string field 1 the code hits the
`assert(c <= 0x7f)` failure branch (modelled as `none`), while the
comparator the spec describes (`spec_tuple_compare`, decoding each part
with its own type) returns `-1`. -/
theorem c1_per_part_type_bug :
    default_tuple_compare ⟨[⟨.UINT, 0⟩, ⟨.STRING, 1⟩]⟩
      (buildTuple 2 [.uintF 1, .strF [97]]) (buildTuple 2 [.uintF 1, .strF [98]]) = none ∧
    spec_tuple_compare ⟨[⟨.UINT, 0⟩, ⟨.STRING, 1⟩]⟩
      (buildTuple 2 [.uintF 1, .strF [97]]) (buildTuple 2 [.uintF 1, .strF [98]]) =
      some (-1) := by
  constructor <;> decide

/-- Claim C2.  Round-trip of the scalar codec: for every `u64` value,
decoding the bytes written by `mp_encode_uint` returns the value and
leaves the cursor exactly past those bytes; for every byte string of
length below `2^32`, decoding the bytes written by `mp_encode_string`
returns a view of the same length whose bytes equal the string, with the
cursor exactly past marker, length field and payload. -/
theorem c2_codec_roundtrip :
    (∀ v : Nat, v < 2 ^ 64 → ∀ (mem : Nat → Nat) (pos : Nat),
      mp_decode_uint (writeBytes mem pos (mp_encode_uint v)) pos =
        some (v, pos + (mp_encode_uint v).length)) ∧
    (∀ s : List Nat, s.length < 2 ^ 32 → (∀ b ∈ s, b < 256) →
      ∀ (mem : Nat → Nat) (pos : Nat),
      mp_decode_string (writeBytes mem pos (mp_encode_string s)) pos =
        some (pos + (strHeader s.length).length, s.length,
          pos + (mp_encode_string s).length) ∧
      readBytes (writeBytes mem pos (mp_encode_string s))
        (pos + (strHeader s.length).length) s.length = s) := by
  constructor
  · intro v hv mem pos
    exact mp_decode_uint_of_bytes hv
      (readBytes_writeBytes _ _ _ (mp_encode_uint_bytes_lt v))
  · intro s hlen hbytes mem pos
    exact mp_decode_string_of_bytes hlen
      (readBytes_writeBytes _ _ _ (mp_encode_string_bytes_lt hbytes))

/-- Witness for C2 at `v = 300` and `s = "hi"`. -/
theorem c2_codec_roundtrip_witness :
    (300 < 2 ^ 64 ∧
      mp_decode_uint (writeBytes (fun _ => 0) 0 (mp_encode_uint 300)) 0 =
        some (300, 0 + (mp_encode_uint 300).length)) ∧
    (([104, 105] : List Nat).length < 2 ^ 32 ∧
      mp_decode_string (writeBytes (fun _ => 0) 0 (mp_encode_string [104, 105])) 0 =
        some (0 + (strHeader ([104, 105] : List Nat).length).length,
          ([104, 105] : List Nat).length, 0 + (mp_encode_string [104, 105]).length) ∧
      readBytes (writeBytes (fun _ => 0) 0 (mp_encode_string [104, 105]))
        (0 + (strHeader ([104, 105] : List Nat).length).length)
        ([104, 105] : List Nat).length = [104, 105]) :=
  ⟨⟨by decide, c2_codec_roundtrip.1 300 (by decide) (fun _ => 0) 0⟩,
   ⟨by decide, c2_codec_roundtrip.2 [104, 105] (by decide) (by decide) (fun _ => 0) 0⟩⟩

/-- Claim C5.  For a record built by `reset k` (`k ≥ 1`) followed by
in-order appends that fit the buffer, `field_start(0)` (`get_field 0`)
returns the position where field 0's encoding begins, and for every `i`
in `[1, k)` with `i < field_count` the stored offset slot holds the byte
position where field `i`'s encoding begins. -/
theorem c5_offset_invariant (k : Nat) (fs : List Field) (hk : 1 ≤ k)
    (hwf : ∀ f ∈ fs, f.WF) (hsz : fieldEnd k fs ≤ MAX_TEST_TUPLE_DATA_SIZE) :
    (fs.length ≠ 0 → (buildTuple k fs).get_field 0 = fieldPos k fs 0) ∧
    (∀ i, 1 ≤ i → i < k → i < fs.length →
      (buildTuple k fs).get_offset i = fieldPos k fs i) := by
  have hinv := buildTuple_inv k fs hk hwf
  constructor
  · intro hne
    exact get_field_eq hinv hsz (by omega) (by omega)
  · intro i h1 h2 h3
    have hgf := get_field_eq hinv hsz h2 h3
    unfold Tuple.get_field at hgf
    rwa [if_neg (by omega : ¬ i = 0)] at hgf

/-- Witness for C5: record `[42 (uint), "hello" (string)]` with indexed
prefix size 2; `field_start(0)` is 4, the position of the byte 42, and
the offset slot for field 1 holds 5, the position of the fixstr marker
`0xa5`. -/
theorem c5_offset_invariant_witness :
    (buildTuple 2 [.uintF 42, .strF [104, 101, 108, 108, 111]]).get_field 0 = 4 ∧
    readByte (buildTuple 2 [.uintF 42, .strF [104, 101, 108, 108, 111]]).data 4 = 42 ∧
    (buildTuple 2 [.uintF 42, .strF [104, 101, 108, 108, 111]]).get_offset 1 = 5 ∧
    readByte (buildTuple 2 [.uintF 42, .strF [104, 101, 108, 108, 111]]).data 5 = 0xa5 := by
  have h := c5_offset_invariant 2 [.uintF 42, .strF [104, 101, 108, 108, 111]]
    (by decide) (by decide) (by decide)
  refine ⟨?_, by decide, ?_, by decide⟩
  · rw [h.1 (by decide)]; decide
  · rw [h.2 1 (by decide) (by decide) (by decide)]; decide

/-- Claim C6.  `mp_encode_uint` selects the smallest of the five forms:
one marker-free byte for `v ≤ 0x7f`, marker `0xcc` plus one byte for
`v ≤ 0xff`, marker `0xcd` plus two big-endian bytes for `v ≤ 0xffff`,
marker `0xce` plus four big-endian bytes for `v ≤ 0xffffffff`, and
marker `0xcf` plus eight big-endian bytes otherwise (most significant
byte first in each list). -/
theorem c6_minimal_encoding (v : Nat) (hv : v < 2 ^ 64) :
    (v ≤ 0x7f → mp_encode_uint v = [v]) ∧
    (0x7f < v → v ≤ 0xff → mp_encode_uint v = [0xcc, v]) ∧
    (0xff < v → v ≤ 0xffff → mp_encode_uint v = [0xcd, v / 256, v % 256]) ∧
    (0xffff < v → v ≤ 0xffffffff →
      mp_encode_uint v =
        [0xce, v / 256 ^ 3, v / 256 ^ 2 % 256, v / 256 % 256, v % 256]) ∧
    (0xffffffff < v →
      mp_encode_uint v =
        [0xcf, v / 256 ^ 7, v / 256 ^ 6 % 256, v / 256 ^ 5 % 256, v / 256 ^ 4 % 256,
          v / 256 ^ 3 % 256, v / 256 ^ 2 % 256, v / 256 % 256, v % 256]) := by
  refine ⟨?_, ?_, ?_, ?_, ?_⟩
  · intro h1
    unfold mp_encode_uint
    rw [if_pos h1, beBytes_one v (by omega)]
  · intro h1 h2
    unfold mp_encode_uint
    rw [if_neg (by omega), if_pos h2, beBytes_one v (by omega)]
  · intro h1 h2
    unfold mp_encode_uint
    rw [if_neg (by omega), if_neg (by omega), if_pos h2]
    have hb : beBytes 2 v = [v / 256 ^ 1 % 256, v / 256 ^ 0 % 256] := rfl
    rw [hb]
    simp only [pow_one, pow_zero, Nat.div_one]
    rw [Nat.mod_eq_of_lt (show v / 256 < 256 by omega)]
  · intro h1 h2
    unfold mp_encode_uint
    rw [if_neg (by omega), if_neg (by omega), if_neg (by omega), if_pos h2]
    have hb : beBytes 4 v = [v / 256 ^ 3 % 256, v / 256 ^ 2 % 256,
        v / 256 ^ 1 % 256, v / 256 ^ 0 % 256] := rfl
    rw [hb]
    simp only [pow_one, pow_zero, Nat.div_one]
    rw [Nat.mod_eq_of_lt (show v / 256 ^ 3 < 256 by omega)]
  · intro h1
    unfold mp_encode_uint
    rw [if_neg (by omega), if_neg (by omega), if_neg (by omega), if_neg (by omega)]
    have hb : beBytes 8 v = [v / 256 ^ 7 % 256, v / 256 ^ 6 % 256, v / 256 ^ 5 % 256,
        v / 256 ^ 4 % 256, v / 256 ^ 3 % 256, v / 256 ^ 2 % 256,
        v / 256 ^ 1 % 256, v / 256 ^ 0 % 256] := rfl
    rw [hb]
    simp only [pow_one, pow_zero, Nat.div_one]
    rw [Nat.mod_eq_of_lt (show v / 256 ^ 7 < 256 by omega)]

/-- Witness for C6: `encode_uint(127)` is one marker-free byte and
`encode_uint(128)` is `0xcc` plus one byte. -/
theorem c6_minimal_encoding_witness :
    mp_encode_uint 127 = [127] ∧ mp_encode_uint 128 = [0xcc, 128] :=
  ⟨(c6_minimal_encoding 127 (by decide)).1 (by decide),
   (c6_minimal_encoding 128 (by decide)).2.1 (by decide) (by decide)⟩

/-- Claim C8.  `mp_decode_uint` takes the assertion-failure branch exactly
when the first byte is neither `≤ 0x7f` nor one of `0xcc,0xcd,0xce,0xcf`;
`mp_decode_string` fails exactly when the first byte is outside
`0xa0..0xbf, 0xd9, 0xda, 0xdb`; for a first byte in the recognized set
the operation does not fail. -/
theorem c8_decode_failure (mem : Nat → Nat) (pos : Nat) :
    (mp_decode_uint mem pos = none ↔
      ¬(readByte mem pos ≤ 0x7f ∨ readByte mem pos = 0xcc ∨ readByte mem pos = 0xcd ∨
        readByte mem pos = 0xce ∨ readByte mem pos = 0xcf)) ∧
    (mp_decode_string mem pos = none ↔
      ¬((0xa0 ≤ readByte mem pos ∧ readByte mem pos ≤ 0xbf) ∨
        readByte mem pos = 0xd9 ∨ readByte mem pos = 0xda ∨ readByte mem pos = 0xdb)) :=
  ⟨mp_decode_uint_eq_none_iff mem pos, mp_decode_string_eq_none_iff mem pos⟩

/-- Claim C10.  Appending a value to a record that already has at least
one field and room remaining leaves unchanged the bytes of all previously
appended fields, all previously stored offset slots, the first-field
offset and `num_offsets`; it increases `data_used` by exactly the encoded
size of the new value and `field_count` by exactly one. -/
theorem c10_append_frame (k : Nat) (fs : List Field) (f : Field) (hk : 1 ≤ k)
    (hwf : ∀ g ∈ fs, g.WF) (hwff : f.WF) (hne : fs ≠ [])
    (hroom : fieldEnd k (fs ++ [f]) ≤ MAX_TEST_TUPLE_DATA_SIZE) :
    ((buildTuple k fs).add_field f).data_used =
        (buildTuple k fs).data_used + f.encode.length ∧
    ((buildTuple k fs).add_field f).field_count = (buildTuple k fs).field_count + 1 ∧
    ((buildTuple k fs).add_field f).num_offsets = (buildTuple k fs).num_offsets ∧
    ((buildTuple k fs).add_field f).first_field_offset =
        (buildTuple k fs).first_field_offset ∧
    (∀ i, 1 ≤ i → i < k → i < fs.length →
      ((buildTuple k fs).add_field f).get_offset i = (buildTuple k fs).get_offset i) ∧
    (∀ i, i < fs.length →
      readBytes ((buildTuple k fs).add_field f).data (fieldPos k fs i)
          (encLen (fs.getD i (.uintF 0))) =
        readBytes (buildTuple k fs).data (fieldPos k fs i)
          (encLen (fs.getD i (.uintF 0)))) := by
  have hinv := buildTuple_inv k fs hk hwf
  have hinv' : TupleInv k (fs ++ [f]) ((buildTuple k fs).add_field f) := by
    rw [Tuple.add_field_eq]
    exact addBytes_inv k fs f (buildTuple k fs) hk hwff hinv
  obtain ⟨-, hfc, hdu, hffo, hoff, hbytes⟩ := hinv
  obtain ⟨-, hfc', hdu', hffo', hoff', hbytes'⟩ := hinv'
  refine ⟨?_, ?_, ?_, ?_, ?_, ?_⟩
  · rw [Tuple.add_field_eq]; rfl
  · rw [Tuple.add_field_eq]; rfl
  · rw [Tuple.add_field_eq]; rfl
  · rw [Tuple.add_field_eq]
    show (if (buildTuple k fs).field_count = 0 then (buildTuple k fs).data_used % 65536
          else (buildTuple k fs).first_field_offset) = _
    rw [if_neg (by rw [hfc]; simpa using hne)]
  · intro i h1 h2 h3
    show readLE ((buildTuple k fs).add_field f).data ((i - 1) * 4) 4 =
      readLE (buildTuple k fs).data ((i - 1) * 4) 4
    rw [hoff' i h1 h2 (by simp; omega), hoff i h1 h2 h3,
      fieldPos_append k fs [f] i (by omega)]
  · intro i h3
    have e1 := hbytes' i (by simp; omega)
    have e2 := hbytes i h3
    rw [fieldPos_append k fs [f] i (by omega), getD_append_left fs [f] i _ h3] at e1
    rw [e1, e2]

/-- Witness for C10 at a record `[1 (uint)]` appending the string "a". -/
theorem c10_append_frame_witness :
    ((buildTuple 2 [.uintF 1]).add_field (.strF [97])).data_used =
      (buildTuple 2 [.uintF 1]).data_used + 2 ∧
    ((buildTuple 2 [.uintF 1]).add_field (.strF [97])).first_field_offset =
      (buildTuple 2 [.uintF 1]).first_field_offset := by
  have h := c10_append_frame 2 [.uintF 1] (.strF [97]) (by decide) (by decide)
    (by decide) (by decide) (by decide)
  exact ⟨h.1.trans (by decide), h.2.2.2.1⟩

/-- Counterexample to claim C3 as stated.  The Key Definition
`[(field 0, UINT), (field 1, STRING)]` and the single well-formed record
`[1 (uint), "a" (string)]` satisfy the claim's precondition (every
referenced field is encoded with the type declared in the corresponding
Key Part), yet comparing the record with itself does not return any
ordering result: the comparator decodes part 1 with part 0's type and
hits the assertion-failure branch (`none`), so no total order is
induced. -/
theorem c3_totality_counterexample :
    kdCompat ⟨[⟨.UINT, 0⟩, ⟨.STRING, 1⟩]⟩ 2 [.uintF 1, .strF [97]] ∧
    (∀ f ∈ ([.uintF 1, .strF [97]] : List Field), f.WF) ∧
    default_tuple_compare ⟨[⟨.UINT, 0⟩, ⟨.STRING, 1⟩]⟩
      (buildTuple 2 [.uintF 1, .strF [97]])
      (buildTuple 2 [.uintF 1, .strF [97]]) = none := by
  refine ⟨by decide, by decide, by decide⟩

/-- Claim C3 (amended).  As stated the claim fails on the code because
every part is decoded with Key Part 0's type (see the counterexample);
it holds once the Key Definition is additionally required to be
homogeneous (every part declares the same type as the first part).  Then
for any three records whose referenced fields are encoded with the
declared types, the comparator returns a result on every pair and the
results are mutually consistent with a single total order: sign
antisymmetry and transitivity (in the strict, the equality and the
non-strict form). -/
theorem c3_total_order_homogeneous (kd : KeyDef) (kA kB kC : Nat)
    (fsA fsB fsC : List Field)
    (hne : kd.parts ≠ []) (hhom : homogeneous kd)
    (hcA : kdCompat kd kA fsA) (hcB : kdCompat kd kB fsB) (hcC : kdCompat kd kC fsC)
    (hkA : 1 ≤ kA) (hkB : 1 ≤ kB) (hkC : 1 ≤ kC)
    (hwA : ∀ f ∈ fsA, f.WF) (hwB : ∀ f ∈ fsB, f.WF) (hwC : ∀ f ∈ fsC, f.WF)
    (hszA : fieldEnd kA fsA ≤ MAX_TEST_TUPLE_DATA_SIZE)
    (hszB : fieldEnd kB fsB ≤ MAX_TEST_TUPLE_DATA_SIZE)
    (hszC : fieldEnd kC fsC ≤ MAX_TEST_TUPLE_DATA_SIZE) :
    ∃ rAB rBC rAC rBA : Int,
      default_tuple_compare kd (buildTuple kA fsA) (buildTuple kB fsB) = some rAB ∧
      default_tuple_compare kd (buildTuple kB fsB) (buildTuple kC fsC) = some rBC ∧
      default_tuple_compare kd (buildTuple kA fsA) (buildTuple kC fsC) = some rAC ∧
      default_tuple_compare kd (buildTuple kB fsB) (buildTuple kA fsA) = some rBA ∧
      rBA = -rAB ∧
      (rAB = 0 → rBC = 0 → rAC = 0) ∧
      (rAB < 0 → rBC < 0 → rAC < 0) ∧
      (rAB ≤ 0 → rBC ≤ 0 → rAC ≤ 0) := by
  have eAB := default_compare_correct hne hhom hcA hcB hkA hkB hwA hwB hszA hszB
  have eBC := default_compare_correct hne hhom hcB hcC hkB hkC hwB hwC hszB hszC
  have eAC := default_compare_correct hne hhom hcA hcC hkA hkC hwA hwC hszA hszC
  have eBA := default_compare_correct hne hhom hcB hcA hkB hkA hwB hwA hszB hszA
  have htyA : ∀ p ∈ kd.parts, (fsA.getD p.field_no (.uintF 0)).ftype = p.field_type :=
    fun p hp => (hcA p hp).2.2
  have htyB : ∀ p ∈ kd.parts, (fsB.getD p.field_no (.uintF 0)).ftype = p.field_type :=
    fun p hp => (hcB p hp).2.2
  have htyC : ∀ p ∈ kd.parts, (fsC.getD p.field_no (.uintF 0)).ftype = p.field_type :=
    fun p hp => (hcC p hp).2.2
  have alAB := keyVals_align kd.parts fsA fsB htyA htyB
  have alBC := keyVals_align kd.parts fsB fsC htyB htyC
  have alAC := keyVals_align kd.parts fsA fsC htyA htyC
  have lAB : (keyVals fsA kd.parts).length = (keyVals fsB kd.parts).length := by
    rw [keyVals_length, keyVals_length]
  have lBC : (keyVals fsB kd.parts).length = (keyVals fsC kd.parts).length := by
    rw [keyVals_length, keyVals_length]
  have lAC : (keyVals fsA kd.parts).length = (keyVals fsC kd.parts).length := by
    rw [keyVals_length, keyVals_length]
  refine ⟨lexCmp (keyVals fsA kd.parts) (keyVals fsB kd.parts),
    lexCmp (keyVals fsB kd.parts) (keyVals fsC kd.parts),
    lexCmp (keyVals fsA kd.parts) (keyVals fsC kd.parts),
    lexCmp (keyVals fsB kd.parts) (keyVals fsA kd.parts),
    eAB, eBC, eAC, eBA, lexCmp_antisym _ _, ?_, ?_, ?_⟩
  · intro h1 h2
    have he : keyVals fsA kd.parts = keyVals fsB kd.parts :=
      (lexCmp_zero_iff _ _ lAB alAB).mp h1
    rw [he]
    exact h2
  · intro h1 h2
    exact (lexCmp_neg_iff _ _ lAC alAC).mpr
      (keyLt_trans _ _ _ ((lexCmp_neg_iff _ _ lAB alAB).mp h1)
        ((lexCmp_neg_iff _ _ lBC alBC).mp h2))
  · intro h1 h2
    by_cases hz : lexCmp (keyVals fsA kd.parts) (keyVals fsB kd.parts) = 0
    · have he : keyVals fsA kd.parts = keyVals fsB kd.parts :=
        (lexCmp_zero_iff _ _ lAB alAB).mp hz
      rw [he]
      exact h2
    · have hlt : lexCmp (keyVals fsA kd.parts) (keyVals fsB kd.parts) < 0 := by omega
      by_cases hz2 : lexCmp (keyVals fsB kd.parts) (keyVals fsC kd.parts) = 0
      · have he : keyVals fsB kd.parts = keyVals fsC kd.parts :=
          (lexCmp_zero_iff _ _ lBC alBC).mp hz2
        rw [← he]
        exact le_of_lt hlt
      · have hlt2 : lexCmp (keyVals fsB kd.parts) (keyVals fsC kd.parts) < 0 := by omega
        exact le_of_lt ((lexCmp_neg_iff _ _ lAC alAC).mpr
          (keyLt_trans _ _ _ ((lexCmp_neg_iff _ _ lAB alAB).mp hlt)
            ((lexCmp_neg_iff _ _ lBC alBC).mp hlt2)))

/-- Witness for the amended C3 at the homogeneous definition
`[(field 0, UINT)]` and three one-field records `1`, `2`, `3`. -/
theorem c3_total_order_homogeneous_witness :
    ∃ rAB rBC rAC rBA : Int,
      default_tuple_compare ⟨[⟨.UINT, 0⟩]⟩ (buildTuple 1 [.uintF 1])
        (buildTuple 1 [.uintF 2]) = some rAB ∧
      default_tuple_compare ⟨[⟨.UINT, 0⟩]⟩ (buildTuple 1 [.uintF 2])
        (buildTuple 1 [.uintF 3]) = some rBC ∧
      default_tuple_compare ⟨[⟨.UINT, 0⟩]⟩ (buildTuple 1 [.uintF 1])
        (buildTuple 1 [.uintF 3]) = some rAC ∧
      default_tuple_compare ⟨[⟨.UINT, 0⟩]⟩ (buildTuple 1 [.uintF 2])
        (buildTuple 1 [.uintF 1]) = some rBA ∧
      rBA = -rAB ∧
      (rAB = 0 → rBC = 0 → rAC = 0) ∧
      (rAB < 0 → rBC < 0 → rAC < 0) ∧
      (rAB ≤ 0 → rBC ≤ 0 → rAC ≤ 0) :=
  c3_total_order_homogeneous ⟨[⟨.UINT, 0⟩]⟩ 1 1 1 [.uintF 1] [.uintF 2] [.uintF 3]
    (by decide) (by decide) (by decide) (by decide) (by decide)
    (by decide) (by decide) (by decide) (by decide) (by decide) (by decide)
    (by decide) (by decide) (by decide)

/-- Claim C4.  For a Key Definition whose parts reference strictly
consecutive field indices and records satisfying the type precondition,
the comparator with the cursor-reuse optimization
(`default_tuple_compare`) returns the same result as the reference
comparator that recomputes `field_start` for every part: the
optimization is observably transparent. -/
theorem c4_cursor_reuse_transparent (kd : KeyDef) (kA kB : Nat)
    (fsA fsB : List Field)
    (hchain : consecutiveParts kd.parts)
    (hcA : kdCompat kd kA fsA) (hcB : kdCompat kd kB fsB)
    (hkA : 1 ≤ kA) (hkB : 1 ≤ kB)
    (hwA : ∀ f ∈ fsA, f.WF) (hwB : ∀ f ∈ fsB, f.WF)
    (hszA : fieldEnd kA fsA ≤ MAX_TEST_TUPLE_DATA_SIZE)
    (hszB : fieldEnd kB fsB ≤ MAX_TEST_TUPLE_DATA_SIZE) :
    default_tuple_compare kd (buildTuple kA fsA) (buildTuple kB fsB) =
      reference_tuple_compare kd (buildTuple kA fsA) (buildTuple kB fsB) := by
  cases kd with
  | mk parts =>
    simp only [kdCompat] at hcA hcB
    cases parts with
    | nil => rfl
    | cons p0 rest =>
      show comparePartsAux p0.field_type (buildTuple kA fsA) (buildTuple kB fsB)
        (p0 :: rest) none 0 0 = referencePartsAux p0.field_type (buildTuple kA fsA)
        (buildTuple kB fsB) (p0 :: rest)
      refine auxEquiv (buildTuple_inv kA fsA hkA hwA) (buildTuple_inv kB fsB hkB hwB)
        hwA hwB hszA hszB p0.field_type (p0 :: rest) ?_ none 0 0 ?_
      · intro p hp
        obtain ⟨a1, a2, -⟩ := hcA p hp
        obtain ⟨b1, b2, -⟩ := hcB p hp
        exact ⟨a1, a2, b1, b2⟩
      · intro q p hq hh hf
        exact absurd hq (by simp)

/-- Witness for C4 at the sequential definition
`[(field 1, UINT), (field 2, UINT)]` over two three-field records. -/
theorem c4_cursor_reuse_transparent_witness :
    default_tuple_compare ⟨[⟨.UINT, 1⟩, ⟨.UINT, 2⟩]⟩
        (buildTuple 3 [.uintF 7, .uintF 5, .uintF 9])
        (buildTuple 3 [.uintF 7, .uintF 5, .uintF 8]) =
      reference_tuple_compare ⟨[⟨.UINT, 1⟩, ⟨.UINT, 2⟩]⟩
        (buildTuple 3 [.uintF 7, .uintF 5, .uintF 9])
        (buildTuple 3 [.uintF 7, .uintF 5, .uintF 8]) :=
  c4_cursor_reuse_transparent ⟨[⟨.UINT, 1⟩, ⟨.UINT, 2⟩]⟩ 3 3
    [.uintF 7, .uintF 5, .uintF 9] [.uintF 7, .uintF 5, .uintF 8]
    (by decide) (by decide) (by decide) (by decide) (by decide)
    (by decide) (by decide) (by decide) (by decide)

/-- Claim C7.  The comparator's STRING step compares the raw bytes over
the shorter of the two lengths and, when that common prefix is equal,
orders the shorter string as less: the result's sign realizes the
standard strict lexicographic order on the two byte strings. -/
theorem c7_string_order (s1 s2 : List Nat)
    (h1 : s1.length < 2 ^ 32) (h2 : s2.length < 2 ^ 32)
    (m1 m2 : Nat → Nat) (p1 p2 : Nat)
    (hm1 : readBytes m1 p1 (mp_encode_string s1).length = mp_encode_string s1)
    (hm2 : readBytes m2 p2 (mp_encode_string s2).length = mp_encode_string s2) :
    ∃ r : Int,
      stepCompare .STRING m1 p1 m2 p2 =
        some (r, p1 + (mp_encode_string s1).length, p2 + (mp_encode_string s2).length) ∧
      (r < 0 ↔ bytesLt s1 s2) ∧ (r = 0 ↔ s1 = s2) ∧ (0 < r ↔ bytesLt s2 s1) := by
  obtain ⟨hdec1, hpay1⟩ := mp_decode_string_of_bytes h1 hm1
  obtain ⟨hdec2, hpay2⟩ := mp_decode_string_of_bytes h2 hm2
  refine ⟨cmpStr s1 s2, ?_, ?_, ?_, ?_⟩
  · unfold stepCompare
    rw [if_neg (by simp), hdec1, hdec2]
    simp only [Option.some_bind]
    have hmin1 : min s1.length s2.length ≤ s1.length := Nat.min_le_left _ _
    have hmin2 : min s1.length s2.length ≤ s2.length := Nat.min_le_right _ _
    have htake1 : readBytes m1 (p1 + (strHeader s1.length).length)
        (min s1.length s2.length) = s1.take (min s1.length s2.length) := by
      rw [← readBytes_take m1 _ s1.length _ hmin1, hpay1]
    have htake2 : readBytes m2 (p2 + (strHeader s2.length).length)
        (min s1.length s2.length) = s2.take (min s1.length s2.length) := by
      rw [← readBytes_take m2 _ s2.length _ hmin2, hpay2]
    rw [min_eq_ite, memcmpMem_eq (min s1.length s2.length) s1 s2 _ _ _ _ hmin1 hmin2
      htake1 htake2]
    rfl
  · rw [cmpStr_eq_lexCmpBytes]
    exact lexCmpBytes_neg_iff s1 s2
  · rw [cmpStr_eq_lexCmpBytes]
    exact lexCmpBytes_zero_iff s1 s2
  · rw [cmpStr_eq_lexCmpBytes]
    have ha := lexCmpBytes_antisym s1 s2
    have hn := lexCmpBytes_neg_iff s2 s1
    constructor
    · intro h
      exact hn.mp (by omega)
    · intro h
      have := hn.mpr h
      omega

/-- Witness for C7: comparing "ab" with "abc" yields a negative result
(less). -/
theorem c7_string_order_witness :
    ∃ r : Int,
      stepCompare .STRING (writeBytes (fun _ => 0) 0 (mp_encode_string [97, 98])) 0
          (writeBytes (fun _ => 0) 0 (mp_encode_string [97, 98, 99])) 0 =
        some (r, 0 + (mp_encode_string [97, 98]).length,
          0 + (mp_encode_string [97, 98, 99]).length) ∧
      r < 0 := by
  obtain ⟨r, hstep, hneg, -, -⟩ := c7_string_order [97, 98] [97, 98, 99]
    (by decide) (by decide)
    (writeBytes (fun _ => 0) 0 (mp_encode_string [97, 98]))
    (writeBytes (fun _ => 0) 0 (mp_encode_string [97, 98, 99])) 0 0
    (by decide) (by decide)
  exact ⟨r, hstep, hneg.mpr (by decide)⟩

/-- Claim C9.  For the Key Definition `[(field 0, UINT)]` and records
whose field 0 decodes as an unsigned integer, the specialized comparator
`tuple_compare_by_first_uint` returns the same result (−1, 0 or 1) as
the generic `default_tuple_compare`. -/
theorem c9_first_uint_equiv (t1 t2 : Tuple)
    (h1 : (mp_decode_uint t1.data t1.first_field_offset).isSome)
    (h2 : (mp_decode_uint t2.data t2.first_field_offset).isSome) :
    ∃ r : Int,
      tuple_compare_by_first_uint ⟨[⟨.UINT, 0⟩]⟩ t1 t2 = some r ∧
      default_tuple_compare ⟨[⟨.UINT, 0⟩]⟩ t1 t2 = some r ∧
      (r = -1 ∨ r = 0 ∨ r = 1) := by
  obtain ⟨v1n, hd1⟩ := Option.isSome_iff_exists.mp h1
  obtain ⟨v2n, hd2⟩ := Option.isSome_iff_exists.mp h2
  obtain ⟨v1, n1⟩ := v1n
  obtain ⟨v2, n2⟩ := v2n
  refine ⟨if v1 < v2 then -1 else if v1 > v2 then 1 else 0, ?_, ?_, ?_⟩
  · unfold tuple_compare_by_first_uint
    rw [hd1, hd2]
  · show comparePartsAux .UINT t1 t2 [⟨.UINT, 0⟩] none 0 0 = _
    simp only [comparePartsAux]
    rw [if_pos (by trivial : reposition none (KeyPart.mk .UINT 0).field_no),
      if_pos (by trivial : reposition none (KeyPart.mk .UINT 0).field_no)]
    have hgf1 : t1.get_field (KeyPart.mk .UINT 0).field_no = t1.first_field_offset := rfl
    have hgf2 : t2.get_field (KeyPart.mk .UINT 0).field_no = t2.first_field_offset := rfl
    rw [hgf1, hgf2]
    unfold stepCompare
    rw [if_pos rfl, hd1, hd2]
    simp only [Option.some_bind]
    rcases Nat.lt_trichotomy v1 v2 with h | h | h
    · rw [if_pos h]
      norm_num
    · rw [if_neg (show ¬ v1 < v2 by omega), if_neg (show ¬ v1 > v2 by omega)]
      norm_num [comparePartsAux]
    · rw [if_neg (show ¬ v1 < v2 by omega), if_pos (show v1 > v2 from h)]
      norm_num
  · rcases Nat.lt_trichotomy v1 v2 with h | h | h
    · exact Or.inl (if_pos h)
    · exact Or.inr (Or.inl (by
        rw [if_neg (show ¬ v1 < v2 by omega), if_neg (show ¬ v1 > v2 by omega)]))
    · exact Or.inr (Or.inr (by
        rw [if_neg (show ¬ v1 < v2 by omega), if_pos (show v1 > v2 from h)]))

/-- Witness for C9: records with first fields 5 and 300 (scenario 2 of
the spec: the comparator returns less). -/
theorem c9_first_uint_equiv_witness :
    (mp_decode_uint (buildTuple 1 [.uintF 5]).data
      (buildTuple 1 [.uintF 5]).first_field_offset).isSome ∧
    ∃ r : Int,
      tuple_compare_by_first_uint ⟨[⟨.UINT, 0⟩]⟩ (buildTuple 1 [.uintF 5])
        (buildTuple 1 [.uintF 300]) = some r ∧
      default_tuple_compare ⟨[⟨.UINT, 0⟩]⟩ (buildTuple 1 [.uintF 5])
        (buildTuple 1 [.uintF 300]) = some r ∧
      (r = -1 ∨ r = 0 ∨ r = 1) :=
  ⟨by decide, c9_first_uint_equiv (buildTuple 1 [.uintF 5]) (buildTuple 1 [.uintF 300])
    (by decide) (by decide)⟩

end TupleCompare
